import Mathlib

/-!
Shallow embedding of the transaction-matching and merge engine of
`gnucash_import.py` (functions `_download_account`, `_import_transactions`
and the balance check of `import_transactions`).

Modelling conventions:
  * Python floats are modelled as exact rationals (`ℚ`); the claims under
    study are about tolerance/ratio logic, not binary rounding.
  * Calendar timestamps (`datetime`) are modelled as integer day numbers
    (`ℤ`); `timedelta(5)` is the integer 5.  Both `tx_date` and
    `split.parent.GetDate()` are whole-day values.
  * Memo strings are `List Char`, so that the regular expressions
    `TXID: (.+?)(;|$)` and `TXNAME: (.+?)(;|$)` (Python `re.search`,
    leftmost match, lazy group) can be modelled by structural recursion.
  * GnuCash `Split` objects are identified by their position
    (entry index, split index) in the ledger; Python `s != prev_split` and
    `s not in split_by_txid.values()` compare SWIG pointers, i.e. identity,
    which positions model.
  * `GetValue`/`GetAmount` of a split coincide (single-currency ledger, as
    the program assumes).
  * `session.book.get_table().lookup("CURRENCY", code)` returns `none` for
    an unknown code, and `Transaction.SetCurrency(None)` is a no-op in the
    C library (`xaccTransSetCurrency` returns early on a null commodity),
    so a committed entry simply keeps no currency; the model stores
    `Option String`.
  * Python division by zero raises; Lean's `(/)` on `ℚ` is total with
    `x / 0 = 0`.  No claim below exercises a zero prior split value.
-/

namespace GnucashImport

abbrev Chars := List Char

/-- The fixed text `TXID: ` of the annotation grammar. -/
def txidPat : Chars := ['T', 'X', 'I', 'D', ':', ' ']

/-- The fixed text `TXNAME: ` of the annotation grammar. -/
def txnamePat : Chars := ['T', 'X', 'N', 'A', 'M', 'E', ':', ' ']

/-- The lazy group `(.+?)(;|$)`: the shortest nonempty prefix that is
followed by `;` or by the end of the string. -/
def groupAfter : Chars → Chars
  | [] => []
  | c :: rest =>
      if c = ';' then ';' :: rest.takeWhile (fun d => d != ';')
      else (c :: rest).takeWhile (fun d => d != ';')

/-- `re.search(pat + "(.+?)(;|$)", s)`: leftmost occurrence of `pat` that is
followed by at least one character, returning the lazy group. -/
def findTag (pat : Chars) : Chars → Option Chars
  | [] => none
  | c :: rest =>
      if pat.isPrefixOf (c :: rest) ∧ (c :: rest).drop pat.length ≠ [] then
        some (groupAfter ((c :: rest).drop pat.length))
      else findTag pat rest

/-- Whether `pat` occurs as a contiguous subsequence. -/
def containsPat (pat : Chars) : Chars → Bool
  | [] => pat.isEmpty
  | c :: rest => pat.isPrefixOf (c :: rest) || containsPat pat rest

/-- `f"TXID: {id}; TXNAME: {desc};"` (line 224 / 209 of the source). -/
def mkTag (tid desc : Chars) : Chars :=
  txidPat ++ tid ++ [';', ' '] ++ txnamePat ++ desc ++ [';']

/-- Lines 204-209: `note = split.GetMemo(); if note: note += "; ";
note += f"TXID: ...; TXNAME: ...;"`. -/
def appendTag (memo tid desc : Chars) : Chars :=
  (if memo = [] then [] else memo ++ [';', ' ']) ++ mkTag tid desc

/-- Absolute value on `ℚ`, spelled with `if` so that the kernel can
evaluate it on closed inputs. -/
def ratAbs (a : ℚ) : ℚ := if a < 0 then -a else a

/-- Binary maximum on `ℚ`, spelled with `if` for kernel evaluation. -/
def ratMax (a b : ℚ) : ℚ := if a ≤ b then b else a

/-- Absolute value on `ℤ`, spelled with `if` for kernel evaluation. -/
def intAbs (a : ℤ) : ℤ := if a < 0 then -a else a

/-- `math.isclose` with its default tolerances
(`rel_tol=1e-9`, `abs_tol=0.0`):
`abs(a-b) <= max(rel_tol * max(abs(a), abs(b)), abs_tol)`. -/
def isclose (a b : ℚ) : Prop :=
  ratAbs (a - b) ≤ ratMax ((1 / 1000000000) * ratMax (ratAbs a) (ratAbs b)) 0

instance (a b : ℚ) : Decidable (isclose a b) :=
  inferInstanceAs (Decidable (_ ≤ _))

/-- One leg of a ledger entry.  `recon` is the GnuCash reconcile flag
character (`'n'`, `'c'`, `'y'`). -/
structure GSplit where
  acct : String
  value : ℚ
  memo : Chars
  recon : Char
deriving DecidableEq, Inhabited, Repr

/-- A ledger entry (GnuCash `Transaction`). -/
structure GEntry where
  date : ℤ
  descr : Chars
  currency : Option String
  splits : List GSplit
deriving DecidableEq, Inhabited, Repr

abbrev Ledger := List GEntry

/-- A split is identified by (entry index, split index). -/
abbrev SplitPos := Nat × Nat

def getEntryD (L : Ledger) (i : Nat) : GEntry := L.getD i default

def getSplitD (L : Ledger) (p : SplitPos) : GSplit :=
  (getEntryD L p.1).splits.getD p.2 default

def validPos (L : Ledger) (p : SplitPos) : Prop :=
  p.1 < L.length ∧ p.2 < (getEntryD L p.1).splits.length

instance (L : Ledger) (p : SplitPos) : Decidable (validPos L p) :=
  inferInstanceAs (Decidable (_ ∧ _))

/-- Update the `n`-th element of a list in place (identity out of range). -/
def modNth {α : Type} (f : α → α) : List α → Nat → List α
  | [], _ => []
  | x :: xs, 0 => f x :: xs
  | x :: xs, n + 1 => x :: modNth f xs n

/-- Mutate the split at position `p` (GnuCash splits are mutated in place
through the store's accessors). -/
def updSplit (L : Ledger) (p : SplitPos) (f : GSplit → GSplit) : Ledger :=
  modNth (fun e => { e with splits := modNth f e.splits p.2 }) L p.1

/-- `tx.SetDate(...)` on the entry at index `i`. -/
def setEntryDate (L : Ledger) (i : Nat) (d : ℤ) : Ledger :=
  modNth (fun e => { e with date := d }) L i

/-- `gc_account.GetSplitList()`: the positions of the splits booked against
account `a`, in ledger order. -/
def accountSplitPositions (L : Ledger) (a : String) : List SplitPos :=
  (List.range L.length).flatMap fun i =>
    (List.range (getEntryD L i).splits.length).filterMap fun j =>
      if (getSplitD L (i, j)).acct = a then some (i, j) else none

/-- The parsed `TXID:` tag of a memo. -/
def tagOfMemo (m : Chars) : Option Chars := findTag txidPat m

def tagOfAt (L : Ledger) (p : SplitPos) : Option Chars :=
  tagOfMemo (getSplitD L p).memo

def txnameOfAt (L : Ledger) (p : SplitPos) : Option Chars :=
  findTag txnamePat (getSplitD L p).memo

/-- The (tag, position) pairs feeding the `split_by_txid` dict
comprehension (line 169). -/
def txidPairs (L : Ledger) (a : String) : List (Chars × SplitPos) :=
  (accountSplitPositions L a).filterMap fun p =>
    (tagOfAt L p).map fun t => (t, p)

/-- Python dict insertion: replace the value of an existing key in place,
else append the binding. -/
def insA {α β : Type} [DecidableEq α] (d : List (α × β)) (k : α) (v : β) :
    List (α × β) :=
  if d.any (fun e => decide (e.1 = k)) then
    d.map (fun e => if e.1 = k then (k, v) else e)
  else d ++ [(k, v)]

/-- Python dict lookup (first — and, keys being unique, only — binding). -/
def lookA {α β : Type} [DecidableEq α] (d : List (α × β)) (k : α) :
    Option (α × β) :=
  d.find? (fun e => decide (e.1 = k))

/-- `split_by_txid = {m.group(1): s for s in gc_splits if ...}`: a dict
comprehension, so a later split with the same tag overwrites an earlier
one. -/
def splitByTxid (L : Ledger) (a : String) : List (Chars × SplitPos) :=
  (txidPairs L a).foldl (fun d e => insA d e.1 e.2) []

def dictValues {α β : Type} (d : List (α × β)) : List β := d.map (fun e => e.2)

/-- Line 170: `gc_splits = [s for s in gc_splits if s not in
split_by_txid.values()]` — the untagged fuzzy-candidate pool. -/
def untaggedPool (L : Ledger) (a : String) : List SplitPos :=
  (accountSplitPositions L a).filter fun p =>
    decide (¬ p ∈ dictValues (splitByTxid L a))

/-- `splits_by_name.setdefault(name, []).append(split)`. -/
def addToGroup (g : List (Chars × List SplitPos)) (name : Chars)
    (p : SplitPos) : List (Chars × List SplitPos) :=
  if g.any (fun e => decide (e.1 = name)) then
    g.map (fun e => if e.1 = name then (e.1, e.2 ++ [p]) else e)
  else g ++ [(name, [p])]

/-- Lines 171-177: group the dict's splits by their parsed `TXNAME:`
(splits whose memo has no `TXNAME:` tag are skipped). -/
def splitsByNameRaw (L : Ledger) (a : String) :
    List (Chars × List SplitPos) :=
  (dictValues (splitByTxid L a)).foldl
    (fun g p =>
      match txnameOfAt L p with
      | none => g
      | some n => addToGroup g n p)
    []

/-- Stable insertion keeping an ascending order by entry date (a later
element with an equal date stays after the earlier one, as Python's stable
sort does). -/
def insDate (L : Ledger) (x : SplitPos) : List SplitPos → List SplitPos
  | [] => [x]
  | y :: ys =>
      if (getEntryD L x.1).date < (getEntryD L y.1).date then x :: y :: ys
      else y :: insDate L x ys

/-- `splits.sort(key=lambda s: s.parent.GetDate())` — stable ascending. -/
def sortByDate (L : Ledger) (ps : List SplitPos) : List SplitPos :=
  ps.foldl (fun acc x => insDate L x acc) []

def splitsByName (L : Ledger) (a : String) : List (Chars × List SplitPos) :=
  (splitsByNameRaw L a).map fun e => (e.1, sortByDate L e.2)

def nameLookup (g : List (Chars × List SplitPos)) (n : Chars) :
    Option (Chars × List SplitPos) :=
  g.find? (fun e => decide (e.1 = n))

/-- `lst[-1]` on a possibly-empty list. -/
def lastOpt {α : Type} : List α → Option α
  | [] => none
  | [x] => some x
  | _ :: y :: l => lastOpt (y :: l)

/-- `acc["date_key"]`: which of the two record dates is authoritative. -/
inductive DateKey where
  | booking
  | value
deriving DecidableEq, Repr

/-- One downloaded booked transaction record (the fields of `tx_data` that
`_import_transactions` reads). -/
structure BankRecord where
  internalId : Chars
  remittance : Chars
  bookingDate : ℤ
  valueDate : ℤ
  amount : ℚ
  currency : String
deriving DecidableEq, Repr

/-- The per-account search index, built once before the record loop
(lines 167-179), together with the account configuration. -/
structure RunCtx where
  acct : String
  dateKey : DateKey
  curTable : List String
  idx : List (Chars × SplitPos)
  pool : List SplitPos
  groups : List (Chars × List SplitPos)
deriving DecidableEq

def mkCtx (L : Ledger) (a : String) (dk : DateKey) (tbl : List String) :
    RunCtx :=
  ⟨a, dk, tbl, splitByTxid L a, untaggedPool L a, splitsByName L a⟩

/-- `tx_date = datetime.fromisoformat(tx_data[acc["date_key"]])`. -/
def txDate (ctx : RunCtx) (r : BankRecord) : ℤ :=
  match ctx.dateKey with
  | DateKey.booking => r.bookingDate
  | DateKey.value => r.valueDate

/-- The non-fatal error printed at line 188, carrying the offending
record. -/
inductive RunErr where
  | amountMismatch (r : BankRecord)
deriving DecidableEq

/-- Lines 194-200: pool splits whose value is `isclose` to the record's
amount and whose parent date `d` satisfies `d - 5 < tx_date < d + 5`. -/
def fuzzyCandidates (ctx : RunCtx) (L : Ledger) (r : BankRecord) :
    List SplitPos :=
  ctx.pool.filter fun p =>
    decide (isclose (getSplitD L p).value r.amount ∧
      (getEntryD L p.1).date - 5 < txDate ctx r ∧
      txDate ctx r < (getEntryD L p.1).date + 5)

def dateDist (L : Ledger) (t : ℤ) (p : SplitPos) : ℤ :=
  intAbs ((getEntryD L p.1).date - t)

/-- `min(candidates, key=lambda s: abs(s.parent.GetDate() - tx_date))` —
Python `min` returns the first element attaining the minimum. -/
def pickMin (L : Ledger) (t : ℤ) : List SplitPos → Option SplitPos
  | [] => none
  | x :: xs =>
      some (xs.foldl (fun b p => if dateDist L t p < dateDist L t b then p else b) x)

/-- `session.book.get_table().lookup("CURRENCY", code)`. -/
def lookupCur (tbl : List String) (c : String) : Option String :=
  if c ∈ tbl then some c else none

/-- Lines 232-238: one new split per prior-entry split other than the
matched one, with value `record.amount * (other.value / prev.value)` on the
other split's account; fresh splits carry an empty memo and `'n'`
reconcile state. -/
def fanoutSplits (L : Ledger) (r : BankRecord) (pp : SplitPos) :
    List GSplit :=
  (getEntryD L pp.1).splits.enum.filterMap fun js =>
    if js.1 = pp.2 then none
    else
      some ⟨js.2.acct, r.amount * (js.2.value / (getSplitD L pp).value),
        [], 'n'⟩

/-- Lines 214-240: the new entry built when no exact or fuzzy match exists.
The primary split (value = record amount, tagged memo) comes first; if a
recurring pattern exists under the raw remittance text, fan-out splits are
added and the description is copied from the prior entry, else the
description is the remittance text. -/
def newEntryFor (ctx : RunCtx) (L : Ledger) (r : BankRecord) : GEntry :=
  let primary : GSplit :=
    ⟨ctx.acct, r.amount, mkTag r.internalId r.remittance, 'n'⟩
  let cur := lookupCur ctx.curTable r.currency
  match nameLookup ctx.groups r.remittance with
  | some g =>
      match lastOpt g.2 with
      | some pp =>
          ⟨txDate ctx r, (getEntryD L pp.1).descr, cur,
            primary :: fanoutSplits L r pp⟩
      | none => ⟨txDate ctx r, r.remittance, cur, [primary]⟩
  | none => ⟨txDate ctx r, r.remittance, cur, [primary]⟩

/-- The body of the `for tx_data in transactions[acc_id]["booked"]` loop
(lines 181-241).  Returns the mutated ledger, the errors printed, and —
for the proofs' bookkeeping — the fuzzy-matched position, if any. -/
def processRecord (ctx : RunCtx) (L : Ledger) (r : BankRecord) :
    Ledger × List RunErr × Option SplitPos :=
  match lookA ctx.idx r.internalId with
  | some e =>
      if isclose (getSplitD L e.2).value r.amount then
        (updSplit L e.2 (fun s => { s with recon := 'y' }), [], none)
      else (L, [RunErr.amountMismatch r], none)
  | none =>
      match pickMin L (txDate ctx r) (fuzzyCandidates ctx L r) with
      | some p =>
          (setEntryDate
            (updSplit L p
              (fun s => { s with memo := appendTag s.memo r.internalId r.remittance }))
            p.1 (txDate ctx r), [], some p)
      | none => (L ++ [newEntryFor ctx L r], [], none)

/-- The whole record loop for one account. -/
def runFull (ctx : RunCtx) :
    Ledger → List BankRecord → Ledger × List RunErr × List (Option SplitPos)
  | L, [] => (L, [], [])
  | L, r :: rs =>
      let st := processRecord ctx L r
      let rest := runFull ctx st.1 rs
      (rest.1, st.2.1 ++ rest.2.1, st.2.2 :: rest.2.2)

/-- The parsed tags carried by account `a`'s splits, in split-list order. -/
def tagsOf (L : Ledger) (a : String) : List Chars :=
  (accountSplitPositions L a).filterMap (tagOfAt L)

/-- `gc_acc.GetBalance()` — the sum of the account's split values. -/
def computedBalance (L : Ledger) (a : String) : ℚ :=
  ((accountSplitPositions L a).map fun p => (getSplitD L p).value).sum

/-- The data injected into the two warning prints of lines 255-256: the
account name and the downloaded (expected) balance. -/
structure BalanceWarning where
  acct : String
  expected : ℚ
deriving DecidableEq, Repr

/-- Lines 254-256: warn when the resulting balance is not `isclose` to the
downloaded one. -/
def balanceCheck (L : Ledger) (a : String) (expected : ℚ) :
    List BalanceWarning :=
  if isclose (computedBalance L a) expected then [] else [⟨a, expected⟩]

/-- One account of `import_transactions`: run the record loop, then the
balance check (which only reads the ledger). -/
def reconcileAccount (ctx : RunCtx) (L : Ledger) (rs : List BankRecord)
    (expected : ℚ) : Ledger × List RunErr × List BalanceWarning :=
  let res := runFull ctx L rs
  (res.1, res.2.1, balanceCheck res.1 ctx.acct expected)

/-- The priority list of line 127. -/
def balancePriority : List String :=
  ["expectedClosed", "interimBooked", "closingBooked", "openingBooked",
    "information", "interimAvailable", "closingAvailable",
    "openingAvailable"]

/-- One element of the downloaded `balances` array. -/
structure BalanceEntry where
  balanceType : String
  amount : ℚ
deriving DecidableEq, Repr

/-- `balances = {b["balanceType"]: b for b in data["balances"]}`. -/
def balanceDict (bs : List BalanceEntry) : List (String × ℚ) :=
  bs.foldl (fun d b => insA d b.balanceType b.amount) []

/-- The `for k in (...): if k in balances: balance = ...; break` loop. -/
def selectFrom (d : List (String × ℚ)) : List String → Option ℚ
  | [] => none
  | k :: ks =>
      match lookA d k with
      | some e => some e.2
      | none => selectFrom d ks

/-- Lines 124-131: the selected balance; `none` models the
`assert balance is not None` failure (`NoBalanceAvailable`). -/
def selectBalance (bs : List BalanceEntry) : Option ℚ :=
  selectFrom (balanceDict bs) balancePriority

/-! ### Concrete data used by witnesses and counterexamples -/

def sChars (s : String) : Chars := s.data

/-- A prior payroll entry whose tagged split fans out into two envelopes. -/
def exL1 : Ledger :=
  [⟨0, sChars ("Payroll entry"), some ("GBP"),
    [⟨"A", 100, sChars ("TXID: id0; TXNAME: PAYROLL;"), 'n'⟩,
      ⟨"B", -60, [], 'n'⟩, ⟨"C", -40, [], 'n'⟩]⟩]

def exCtx1 : RunCtx := mkCtx exL1 ("A") DateKey.booking [("GBP")]

def exR1 : BankRecord := ⟨sChars ("id1"), sChars ("PAYROLL"), 3, 4, 150, "GBP"⟩

/-- A ledger with a single unreconciled, untagged split of value 100 dated
day 0. -/
def exL2 : Ledger := [⟨0, [], none, [⟨"A", 100, [], 'n'⟩]⟩]

def exCtx2 : RunCtx := mkCtx exL2 ("A") DateKey.booking []

/-- Equal amount, booked exactly 5 days after the split's entry date. -/
def exR2 : BankRecord := ⟨sChars ("a"), sChars ("n"), 5, 0, 100, "GBP"⟩

/-- Two records of equal amount and date but distinct ids. -/
def exRa : BankRecord := ⟨sChars ("a"), sChars ("n"), 0, 0, 100, "GBP"⟩

def exRb : BankRecord := ⟨sChars ("b"), sChars ("n"), 0, 0, 100, "GBP"⟩

def exL5 : Ledger := (runFull exCtx2 exL2 [exRa, exRb]).1

def exCtx5 : RunCtx := mkCtx exL5 ("A") DateKey.booking []

/-- Distinct internal ids that collapse to the same parsed tag `q`. -/
def exR6a : BankRecord := ⟨sChars ("q; r"), sChars ("n"), 0, 0, 100, "GBP"⟩

def exR6b : BankRecord := ⟨sChars ("q; s"), sChars ("m"), 0, 0, 50, "GBP"⟩

def exCtx6 : RunCtx := mkCtx ([]) ("A") DateKey.booking []

/-- A tagged split of value 50 against an incoming amount of 75. -/
def exL3 : Ledger :=
  [⟨0, [], none, [⟨"A", 50, sChars ("TXID: t0; TXNAME: d;"), 'n'⟩]⟩]

def exCtx3 : RunCtx := mkCtx exL3 ("A") DateKey.booking []

def exR3 : BankRecord := ⟨sChars ("t0"), sChars ("d"), 0, 0, 75, "GBP"⟩

/-- Two splits of one account carrying the same `TXID: x` tag. -/
def exL10 : Ledger :=
  [⟨0, [], none, [⟨"A", 1, sChars ("TXID: x; TXNAME: n;"), 'n'⟩]⟩,
    ⟨1, [], none, [⟨"A", 2, sChars ("TXID: x; TXNAME: n;"), 'n'⟩]⟩]

/-- A record in a currency absent from the ledger's commodity table. -/
def exR8 : BankRecord := ⟨sChars ("z"), sChars ("n"), 2, 3, 10, "XXX"⟩

def exCtx8 : RunCtx := mkCtx ([]) ("A") DateKey.booking [("EUR")]

/-- Ledgers whose computed balances are 999 and 998. -/
def exL9a : Ledger := [⟨0, [], none, [⟨"A", 999, [], 'n'⟩]⟩]

def exL9b : Ledger := [⟨0, [], none, [⟨"A", 998, [], 'n'⟩]⟩]

/-- A well-formed record processed against an empty ledger. -/
def exR5 : BankRecord := ⟨sChars ("w"), sChars ("n"), 0, 0, 10, "GBP"⟩

def exCtxE : RunCtx := mkCtx ([]) ("A") DateKey.booking []

/-! ### Generic list lemmas -/

theorem modNth_length {α : Type} (f : α → α) :
    ∀ (l : List α) (i : Nat), (modNth f l i).length = l.length
  | [], _ => rfl
  | _ :: _, 0 => rfl
  | _ :: xs, i + 1 => congrArg Nat.succ (modNth_length f xs i)

theorem getD_modNth_self {α : Type} (f : α → α) (d : α) :
    ∀ (l : List α) (i : Nat), i < l.length →
      (modNth f l i).getD i d = f (l.getD i d)
  | [], _, h => absurd h (by simp)
  | _ :: _, 0, _ => rfl
  | _ :: xs, i + 1, h =>
      getD_modNth_self f d xs i (Nat.lt_of_succ_lt_succ h)

theorem getD_modNth_ne {α : Type} (f : α → α) (d : α) :
    ∀ (l : List α) (i j : Nat), i ≠ j →
      (modNth f l i).getD j d = l.getD j d
  | [], _, _, _ => by simp [modNth]
  | _ :: _, 0, 0, h => absurd rfl h
  | _ :: _, 0, _ + 1, _ => rfl
  | _ :: _, _ + 1, 0, _ => rfl
  | _ :: xs, i + 1, j + 1, h =>
      getD_modNth_ne f d xs i j (fun e => h (congrArg Nat.succ e))

theorem lastOpt_ne_nil {α : Type} :
    ∀ (l : List α), l ≠ [] → ∃ y, lastOpt l = some y
  | [], h => absurd rfl h
  | [x], _ => ⟨x, rfl⟩
  | x :: y :: l, _ => by
      obtain ⟨w, hw⟩ := lastOpt_ne_nil (y :: l) (by simp)
      exact ⟨w, by rw [show lastOpt (x :: y :: l) = lastOpt (y :: l) from rfl, hw]⟩

theorem takeWhile_append_stop (p : Char → Bool) (a : Char) (h : p a = false) :
    ∀ (l z : Chars), (l ++ a :: z).takeWhile p = l.takeWhile p
  | [], z => by simp [List.takeWhile, h]
  | c :: cs, z => by
      by_cases hc : p c
      · simp only [List.cons_append, List.takeWhile, hc]
        exact congrArg (List.cons c) (takeWhile_append_stop p a h cs z)
      · simp only [List.cons_append, List.takeWhile, hc]

theorem takeWhile_of_all (p : Char → Bool) :
    ∀ (l : Chars), (∀ c ∈ l, p c = true) → l.takeWhile p = l
  | [], _ => rfl
  | c :: cs, h => by
      have hc : p c = true := h c (List.mem_cons_self c cs)
      have ih := takeWhile_of_all p cs (fun x hx => h x (List.mem_cons_of_mem c hx))
      simp only [List.takeWhile, hc, ih]

/-! ### Lemmas about `isPrefixOf` over characters -/

theorem ipo_append_self : ∀ (P w : Chars), P.isPrefixOf (P ++ w) = true
  | [], _ => by simp
  | c :: cs, w => by
      simp only [List.cons_append, List.isPrefixOf_cons₂, beq_self_eq_true,
        Bool.true_and]
      exact ipo_append_self cs w

theorem ipo_extend : ∀ (P u w : Chars),
    P.isPrefixOf u = true → P.isPrefixOf (u ++ w) = true
  | [], _, _, _ => by simp
  | c :: cs, [], w, h => by simp at h
  | c :: cs, b :: bs, w, h => by
      simp only [List.isPrefixOf_cons₂, Bool.and_eq_true, beq_iff_eq] at h
      simp only [List.cons_append, List.isPrefixOf_cons₂, Bool.and_eq_true,
        beq_iff_eq]
      exact ⟨h.1, ipo_extend cs bs w h.2⟩

theorem ipo_semi : ∀ (P u v : Chars),
    P.isPrefixOf (u ++ ';' :: v) = true → P.isPrefixOf u = true ∨ ';' ∈ P
  | [], _, _, _ => Or.inl (by simp)
  | c :: cs, [], v, h => by
      simp only [List.nil_append, List.isPrefixOf_cons₂, Bool.and_eq_true,
        beq_iff_eq] at h
      exact Or.inr (by simp [h.1])
  | c :: cs, b :: bs, v, h => by
      simp only [List.cons_append, List.isPrefixOf_cons₂, Bool.and_eq_true,
        beq_iff_eq] at h
      rcases ipo_semi cs bs v h.2 with h' | h'
      · exact Or.inl (by simp [List.isPrefixOf_cons₂, h.1, h'])
      · exact Or.inr (by simp [h'])

theorem ipo_eq_of_drop_nil : ∀ (P u : Chars),
    P.isPrefixOf u = true → u.drop P.length = [] → u = P
  | [], u, _, h2 => by simpa using h2
  | c :: cs, [], h, _ => by simp at h
  | c :: cs, b :: bs, h, h2 => by
      simp only [List.isPrefixOf_cons₂, Bool.and_eq_true, beq_iff_eq] at h
      have := ipo_eq_of_drop_nil cs bs h.2 (by simpa using h2)
      simp [h.1, this]

/-! ### Parsing lemmas for the annotation grammar -/

theorem groupAfter_id (tid r : Chars) (h1 : tid ≠ [])
    (h2 : ';' ∉ tid) : groupAfter (tid ++ ';' :: r) = tid := by
  cases tid with
  | nil => cases h1 rfl
  | cons c cs =>
      have hc : c ≠ ';' := fun e => h2 (by simp [e])
      have hstop : (fun d => d != ';') ';' = false := by simp
      have hall : ∀ x ∈ c :: cs, (fun d => d != ';') x = true := by
        intro x hx
        simp only [bne_iff_ne, ne_eq, decide_eq_true_eq]
        exact fun e => h2 (e ▸ hx)
      simp only [List.cons_append, groupAfter, if_neg hc]
      exact (takeWhile_append_stop (fun d => d != ';') ';' hstop (c :: cs) r).trans
        (takeWhile_of_all (fun d => d != ';') (c :: cs) hall)

theorem groupAfter_append_semi (a z : Chars) (h : a ≠ []) :
    groupAfter (a ++ ';' :: z) = groupAfter a := by
  cases a with
  | nil => cases h rfl
  | cons c cs =>
      have hstop : (fun d => d != ';') ';' = false := by simp
      by_cases hc : c = ';'
      · subst hc
        simp only [List.cons_append, groupAfter, if_pos rfl]
        exact congrArg (List.cons ';')
          (takeWhile_append_stop (fun d => d != ';') ';' hstop cs z)
      · simp only [List.cons_append, groupAfter, if_neg hc]
        exact takeWhile_append_stop (fun d => d != ';') ';' hstop (c :: cs) z

theorem findTag_prefix_pos (pat l : Chars) (h : pat.isPrefixOf l = true)
    (h2 : l.drop pat.length ≠ []) (hl : l ≠ []) :
    findTag pat l = some (groupAfter (l.drop pat.length)) := by
  cases l with
  | nil => cases hl rfl
  | cons c rest => simp only [findTag]; rw [if_pos ⟨h, h2⟩]

theorem findTag_step (pat : Chars) (c : Char) (rest : Chars)
    (h : ¬ (pat.isPrefixOf (c :: rest) = true ∧
      (c :: rest).drop pat.length ≠ [])) :
    findTag pat (c :: rest) = findTag pat rest := by
  simp only [findTag]; rw [if_neg h]

theorem containsPat_cons_false (pat : Chars) (c : Char) (rest : Chars)
    (h : containsPat pat (c :: rest) = false) :
    pat.isPrefixOf (c :: rest) = false ∧ containsPat pat rest = false := by
  simpa [containsPat] using h

theorem findTag_none_of_not_contains (pat : Chars) :
    ∀ (m : Chars), containsPat pat m = false → findTag pat m = none
  | [], _ => rfl
  | c :: rest, h => by
      obtain ⟨h1, h2⟩ := containsPat_cons_false pat c rest h
      rw [findTag_step pat c rest (by simp [h1]),
        findTag_none_of_not_contains pat rest h2]

theorem semi_not_mem_txidPat : ';' ∉ txidPat := by decide

theorem findTag_skip_semi :
    ∀ (m z : Chars), containsPat txidPat m = false →
      findTag txidPat (m ++ ';' :: z) = findTag txidPat (';' :: z)
  | [], z, _ => rfl
  | c :: m', z, h => by
      obtain ⟨h1, h2⟩ := containsPat_cons_false txidPat c m' h
      have hpre : txidPat.isPrefixOf (c :: (m' ++ ';' :: z)) = false := by
        cases hb : txidPat.isPrefixOf (c :: (m' ++ ';' :: z)) with
        | false => rfl
        | true =>
            rcases ipo_semi txidPat (c :: m') z hb with h' | h'
            · rw [h1] at h'; cases h'
            · cases semi_not_mem_txidPat h'
        
      have hcond : ¬ (txidPat.isPrefixOf (c :: (m' ++ ';' :: z)) = true ∧
          (c :: (m' ++ ';' :: z)).drop txidPat.length ≠ []) := by
        intro hcon
        rw [hpre] at hcon
        exact absurd hcon.1 (by simp)
      rw [show (c :: m') ++ ';' :: z = c :: (m' ++ ';' :: z) from rfl,
        findTag_step txidPat c (m' ++ ';' :: z) hcond,
        findTag_skip_semi m' z h2]

theorem drop_append_le {α : Type} :
    ∀ (l w : List α) (n : Nat), n ≤ l.length →
      (l ++ w).drop n = l.drop n ++ w
  | l, w, 0, _ => by simp
  | [], w, n + 1, h => by simp at h
  | x :: xs, w, n + 1, h => by
      simpa using drop_append_le xs w n (Nat.le_of_succ_le_succ h)

theorem tagOfMemo_mkTag (tid d : Chars) (h1 : tid ≠ []) (h2 : ';' ∉ tid) :
    tagOfMemo (mkTag tid d) = some tid := by
  have e : mkTag tid d =
      txidPat ++ (tid ++ ';' :: (' ' :: (txnamePat ++ (d ++ [';'])))) := by
    simp [mkTag, List.append_assoc]
  have hx : (tid ++ ';' :: (' ' :: (txnamePat ++ (d ++ [';'])))) ≠ [] := by
    cases tid <;> simp
  rw [tagOfMemo, e,
    findTag_prefix_pos txidPat
      (txidPat ++ (tid ++ ';' :: (' ' :: (txnamePat ++ (d ++ [';'])))))
      (ipo_append_self txidPat _)
      (by rw [List.drop_left]; exact hx)
      (by simp [txidPat]),
    List.drop_left, groupAfter_id tid _ h1 h2]

theorem tagOfMemo_appendTag (m tid d : Chars)
    (hm : containsPat txidPat m = false) (h1 : tid ≠ []) (h2 : ';' ∉ tid) :
    tagOfMemo (appendTag m tid d) = some tid := by
  by_cases he : m = []
  · subst he
    show tagOfMemo ([] ++ mkTag tid d) = some tid
    rw [List.nil_append]
    exact tagOfMemo_mkTag tid d h1 h2
  · have e : appendTag m tid d = m ++ ';' :: (' ' :: mkTag tid d) := by
      simp [appendTag, if_neg he, List.append_assoc]
    rw [tagOfMemo, e, findTag_skip_semi m (' ' :: mkTag tid d) hm,
      findTag_step txidPat ';' (' ' :: mkTag tid d) (by
        intro hcon
        have : txidPat.isPrefixOf (';' :: (' ' :: mkTag tid d)) = false := by
          simp [txidPat, List.isPrefixOf_cons₂]
        rw [this] at hcon
        exact absurd hcon.1 (by simp)),
      findTag_step txidPat ' ' (mkTag tid d) (by
        intro hcon
        have : txidPat.isPrefixOf (' ' :: mkTag tid d) = false := by
          simp [txidPat, List.isPrefixOf_cons₂]
        rw [this] at hcon
        exact absurd hcon.1 (by simp))]
    exact tagOfMemo_mkTag tid d h1 h2

theorem findTag_mono_semi :
    ∀ (m z g : Chars), findTag txidPat m = some g →
      findTag txidPat (m ++ ';' :: z) = some g
  | [], z, g, h => by simp [findTag] at h
  | c :: m', z, g, h => by
      show findTag txidPat (c :: (m' ++ ';' :: z)) = some g
      by_cases hcond : txidPat.isPrefixOf (c :: m') = true ∧
          (c :: m').drop txidPat.length ≠ []
      · rw [findTag_prefix_pos txidPat (c :: m') hcond.1 hcond.2 (by simp)] at h
        have hlen : txidPat.length ≤ (c :: m').length := by
          by_contra hlt
          exact hcond.2 (List.drop_eq_nil_of_le (Nat.le_of_not_le hlt))
        have hdrop : (c :: (m' ++ ';' :: z)).drop txidPat.length =
            (c :: m').drop txidPat.length ++ ';' :: z :=
          drop_append_le (c :: m') (';' :: z) txidPat.length hlen
        rw [findTag_prefix_pos txidPat (c :: (m' ++ ';' :: z))
            (ipo_extend txidPat (c :: m') (';' :: z) hcond.1)
            (by rw [hdrop]; simp [hcond.2])
            (by simp),
          hdrop, groupAfter_append_semi _ z hcond.2]
        exact h
      · by_cases hpre : txidPat.isPrefixOf (c :: m') = true
        · -- the pattern matches at the head but nothing follows: then
          -- `c :: m'` is the pattern itself, whose tail has no match,
          -- contradicting `h`.
          have hd : (c :: m').drop txidPat.length = [] := by
            by_contra hd
            exact hcond ⟨hpre, hd⟩
          have hm : c :: m' = txidPat :=
            ipo_eq_of_drop_nil txidPat (c :: m') hpre hd
          have hm' : m' = ['X', 'I', 'D', ':', ' '] := by
            have h2 := hm
            rw [txidPat] at h2
            exact ((List.cons.injEq c m' 'T' _).mp h2).2
          rw [findTag_step txidPat c m' (fun hcon => hcond hcon)] at h
          rw [hm'] at h
          have hnone : findTag txidPat (['X', 'I', 'D', ':', ' '] : Chars) =
              none := by decide
          rw [hnone] at h
          cases h
        · have hpre2 : txidPat.isPrefixOf (c :: (m' ++ ';' :: z)) = false := by
            cases hb : txidPat.isPrefixOf (c :: (m' ++ ';' :: z)) with
            | false => rfl
            | true =>
                rcases ipo_semi txidPat (c :: m') z hb with h' | h'
                · exact absurd h' hpre
                · cases semi_not_mem_txidPat h'
          rw [findTag_step txidPat c m' (fun hcon => hpre hcon.1)] at h
          rw [findTag_step txidPat c (m' ++ ';' :: z) (by
            intro hcon
            rw [hpre2] at hcon
            exact absurd hcon.1 (by simp))]
          exact findTag_mono_semi m' z g h

/-! ### Association-list (Python dict) lemmas -/

theorem lastOpt_cons_opt {α : Type} (x : α) (l : List α) :
    lastOpt (x :: l) = match lastOpt l with
      | some y => some y
      | none => some x := by
  cases l with
  | nil => rfl
  | cons y ys =>
      obtain ⟨w, hw⟩ := lastOpt_ne_nil (y :: ys) (by simp)
      rw [show lastOpt (x :: y :: ys) = lastOpt (y :: ys) from rfl, hw]

theorem lookA_map_rep_eq {α β : Type} [DecidableEq α] (k : α) (v : β) :
    ∀ (d : List (α × β)), d.any (fun e => decide (e.1 = k)) = true →
      lookA (d.map (fun e => if e.1 = k then (k, v) else e)) k = some (k, v)
  | [], h => by simp at h
  | e :: d', h => by
      by_cases he : e.1 = k
      · simp [lookA, List.find?, he]
      · have h' : d'.any (fun e => decide (e.1 = k)) = true := by
          simpa [List.any_cons, he] using h
        have ih := lookA_map_rep_eq k v d' h'
        simpa [lookA, List.find?, he] using ih

theorem lookA_map_rep_ne {α β : Type} [DecidableEq α] (k : α) (v : β) (q : α)
    (hq : q ≠ k) :
    ∀ (d : List (α × β)),
      lookA (d.map (fun e => if e.1 = k then (k, v) else e)) q = lookA d q
  | [] => rfl
  | e :: d' => by
      have ih := lookA_map_rep_ne k v q hq d'
      simp only [lookA] at ih ⊢
      rw [List.map_cons]
      by_cases he : e.1 = k
      · rw [if_pos he,
          List.find?_cons_of_neg _ (by simp; exact fun h => hq h.symm),
          List.find?_cons_of_neg _ (by simp [he]; exact fun h => hq h.symm)]
        exact ih
      · rw [if_neg he]
        by_cases heq : e.1 = q
        · rw [List.find?_cons_of_pos _ (by simp [heq]),
            List.find?_cons_of_pos _ (by simp [heq])]
        · rw [List.find?_cons_of_neg _ (by simp [heq]),
            List.find?_cons_of_neg _ (by simp [heq])]
          exact ih

theorem lookA_append_one {α β : Type} [DecidableEq α] (k : α) (v : β) (q : α) :
    ∀ (d : List (α × β)), d.any (fun e => decide (e.1 = k)) = false →
      lookA (d ++ [(k, v)]) q =
        if q = k then some (k, v) else lookA d q
  | [], _ => by
      by_cases hq : q = k
      · rw [if_pos hq, List.nil_append, lookA,
          List.find?_cons_of_pos _ (by simp [hq.symm])]
      · rw [if_neg hq, List.nil_append, lookA,
          List.find?_cons_of_neg _ (by simp; exact fun h => hq h.symm)]
        rfl
  | e :: d', h => by
      have hek : ¬ e.1 = k := by
        have := List.any_eq_false.mp h e (List.mem_cons_self e d')
        simpa using this
      have h' : d'.any (fun x => decide (x.1 = k)) = false :=
        List.any_eq_false.mpr fun x hx =>
          by simpa using List.any_eq_false.mp h x (List.mem_cons_of_mem e hx)
      have ih := lookA_append_one k v q d' h'
      simp only [lookA] at ih ⊢
      rw [List.cons_append]
      by_cases heq : e.1 = q
      · have hqk : q ≠ k := fun hc => hek (heq.symm ▸ hc ▸ rfl)
        rw [if_neg hqk, List.find?_cons_of_pos _ (by simp [heq]),
          List.find?_cons_of_pos _ (by simp [heq])]
      · rw [List.find?_cons_of_neg _ (by simp [heq]), ih]
        by_cases hq : q = k
        · rw [if_pos hq, if_pos hq]
        · rw [if_neg hq, if_neg hq,
            List.find?_cons_of_neg _ (by simp [heq])]

theorem lookA_insA {α β : Type} [DecidableEq α] (d : List (α × β)) (k : α)
    (v : β) (q : α) :
    lookA (insA d k v) q = if q = k then some (k, v) else lookA d q := by
  by_cases hany : d.any (fun e => decide (e.1 = k)) = true
  · by_cases hq : q = k
    · subst hq
      rw [insA, if_pos hany, if_pos rfl, lookA_map_rep_eq q v d hany]
    · rw [insA, if_pos hany, if_neg hq, lookA_map_rep_ne k v q hq d]
  · have hf : d.any (fun e => decide (e.1 = k)) = false :=
      Bool.eq_false_iff.mpr hany
    rw [insA, if_neg (by simp [hf]), lookA_append_one k v q d hf]

theorem lookA_foldl {α β : Type} [DecidableEq α] :
    ∀ (prs : List (α × β)) (d : List (α × β)) (k : α),
      lookA (prs.foldl (fun d e => insA d e.1 e.2) d) k =
        match lastOpt (prs.filter (fun e => decide (e.1 = k))) with
        | some e => some (k, e.2)
        | none => lookA d k
  | [], d, k => by simp [lastOpt]
  | e :: rest, d, k => by
      have ih := lookA_foldl rest (insA d e.1 e.2) k
      rw [List.foldl_cons, ih]
      cases hl : lastOpt (rest.filter (fun x => decide (x.1 = k))) with
      | some x =>
          by_cases he : e.1 = k
          · rw [List.filter_cons_of_pos (by simpa using he),
              lastOpt_cons_opt, hl]
          · rw [List.filter_cons_of_neg (by simpa using he), hl]
      | none =>
          by_cases he : e.1 = k
          · rw [List.filter_cons_of_pos (by simpa using he),
              lastOpt_cons_opt, hl, lookA_insA, if_pos he.symm]
            rw [he]
          · rw [List.filter_cons_of_neg (by simpa using he), hl,
              lookA_insA, if_neg (fun h => he h.symm)]

theorem lookA_foldl_nil {α β : Type} [DecidableEq α] (prs : List (α × β))
    (k : α) :
    lookA (prs.foldl (fun d e => insA d e.1 e.2) []) k =
      match lastOpt (prs.filter (fun e => decide (e.1 = k))) with
      | some e => some (k, e.2)
      | none => none := by
  rw [lookA_foldl prs [] k]
  cases lastOpt (prs.filter (fun e => decide (e.1 = k))) <;> rfl

theorem lastOpt_mem {α : Type} :
    ∀ (l : List α) (x : α), lastOpt l = some x → x ∈ l
  | [], x, h => by cases h
  | [y], x, h => by
      rw [show lastOpt [y] = some y from rfl] at h
      cases h
      simp
  | y :: z :: l, x, h => by
      rw [show lastOpt (y :: z :: l) = lastOpt (z :: l) from rfl] at h
      exact List.mem_cons_of_mem y (lastOpt_mem (z :: l) x h)

theorem lookA_foldl_ne_none {α β : Type} [DecidableEq α]
    (prs : List (α × β)) (k : α) (v : β) (h : (k, v) ∈ prs) :
    lookA (prs.foldl (fun d e => insA d e.1 e.2) []) k ≠ none := by
  rw [lookA_foldl_nil prs k]
  have hmem : (k, v) ∈ prs.filter (fun e => decide (e.1 = k)) :=
    List.mem_filter.mpr ⟨h, by simp⟩
  have hne : prs.filter (fun e => decide (e.1 = k)) ≠ [] := by
    intro he
    rw [he] at hmem
    cases hmem
  obtain ⟨y, hy⟩ := lastOpt_ne_nil _ hne
  rw [hy]
  simp

theorem lookA_foldl_mem {α β : Type} [DecidableEq α]
    (prs : List (α × β)) (k : α) (e : α × β)
    (h : lookA (prs.foldl (fun d e => insA d e.1 e.2) []) k = some e) :
    e.1 = k ∧ e ∈ prs := by
  rw [lookA_foldl_nil prs k] at h
  cases hl : lastOpt (prs.filter (fun x => decide (x.1 = k))) with
  | none => rw [hl] at h; cases h
  | some x =>
      rw [hl] at h
      have hx := lastOpt_mem _ x hl
      have hmem := List.mem_filter.mp hx
      cases h
      exact ⟨rfl, by
        have : x = (k, x.2) := by
          have hk : x.1 = k := by simpa using hmem.2
          cases x
          simp at hk
          simp [hk]
        exact this ▸ hmem.1⟩

theorem mem_insA {α β : Type} [DecidableEq α] (d : List (α × β)) (k : α)
    (v : β) (e : α × β) (h : e ∈ insA d k v) : e ∈ d ∨ e = (k, v) := by
  rw [insA] at h
  by_cases hany : d.any (fun x => decide (x.1 = k)) = true
  · rw [if_pos hany] at h
    obtain ⟨x, hx, hfx⟩ := List.mem_map.mp h
    by_cases hxk : x.1 = k
    · rw [if_pos hxk] at hfx
      exact Or.inr hfx.symm
    · rw [if_neg hxk] at hfx
      exact Or.inl (hfx ▸ hx)
  · rw [if_neg hany] at h
    rcases List.mem_append.mp h with h' | h'
    · exact Or.inl h'
    · exact Or.inr (List.mem_singleton.mp h')

theorem mem_foldl_insA {α β : Type} [DecidableEq α] :
    ∀ (prs d : List (α × β)) (e : α × β),
      e ∈ prs.foldl (fun d x => insA d x.1 x.2) d → e ∈ d ∨ e ∈ prs
  | [], d, e, h => Or.inl h
  | x :: rest, d, e, h => by
      rw [List.foldl_cons] at h
      rcases mem_foldl_insA rest (insA d x.1 x.2) e h with h' | h'
      · rcases mem_insA d x.1 x.2 e h' with h'' | h''
        · exact Or.inl h''
        · exact Or.inr (by rw [h'']; exact List.mem_cons_self x rest)
      · exact Or.inr (List.mem_cons_of_mem x h')

theorem keys_insA {α β : Type} [DecidableEq α] (d : List (α × β)) (k : α)
    (v : β) (hany : d.any (fun x => decide (x.1 = k)) = true) :
    (insA d k v).map Prod.fst = d.map Prod.fst := by
  rw [insA, if_pos hany, List.map_map]
  exact List.map_congr_left fun e _ => by
    by_cases he : e.1 = k
    · simp [he]
    · simp [he]

theorem keys_nodup_insA {α β : Type} [DecidableEq α] (d : List (α × β))
    (k : α) (v : β) (h : (d.map Prod.fst).Nodup) :
    ((insA d k v).map Prod.fst).Nodup := by
  by_cases hany : d.any (fun x => decide (x.1 = k)) = true
  · rw [keys_insA d k v hany]
    exact h
  · rw [insA, if_neg hany, List.map_append]
    have hk : k ∉ d.map Prod.fst := by
      intro hmem
      obtain ⟨e, he, hek⟩ := List.mem_map.mp hmem
      have := List.any_eq_false.mp (Bool.eq_false_iff.mpr hany) e he
      simp [hek] at this
    have hgoal : (d.map Prod.fst ++ [k]).Nodup := by
      rw [List.nodup_append]
      refine ⟨h, List.nodup_singleton k, ?_⟩
      intro x hx hy
      rw [List.mem_singleton] at hy
      exact hk (hy ▸ hx)
    simpa using hgoal

theorem keys_nodup_foldl {α β : Type} [DecidableEq α] :
    ∀ (prs d : List (α × β)), (d.map Prod.fst).Nodup →
      ((prs.foldl (fun d x => insA d x.1 x.2) d).map Prod.fst).Nodup
  | [], d, h => h
  | x :: rest, d, h => by
      rw [List.foldl_cons]
      exact keys_nodup_foldl rest (insA d x.1 x.2) (keys_nodup_insA d x.1 x.2 h)

theorem lookA_of_mem_nodup {α β : Type} [DecidableEq α] :
    ∀ (d : List (α × β)), (d.map Prod.fst).Nodup → ∀ (e : α × β), e ∈ d →
      lookA d e.1 = some e
  | [], _, e, he => by cases he
  | x :: d', h, e, he => by
      rcases List.mem_cons.mp he with h' | h'
      · rw [h', lookA, List.find?_cons_of_pos _ (by simp)]
      · have hx : x.1 ≠ e.1 := by
          rw [List.map_cons, List.nodup_cons] at h
          intro hc
          exact h.1 (hc ▸ List.mem_map.mpr ⟨e, h', rfl⟩)
        have ih := lookA_of_mem_nodup d'
          (by rw [List.map_cons, List.nodup_cons] at h; exact h.2) e h'
        rw [lookA, List.find?_cons_of_neg _ (by simp [hx]), ← lookA]
        exact ih

/-! ### Positional accessor lemmas -/

theorem getD_append_left {α : Type} (d : α) :
    ∀ (l w : List α) (i : Nat), i < l.length → (l ++ w).getD i d = l.getD i d
  | [], _, _, h => by simp at h
  | x :: xs, w, 0, _ => rfl
  | x :: xs, w, i + 1, h =>
      getD_append_left d xs w i (Nat.lt_of_succ_lt_succ h)

theorem getD_append_mid {α : Type} (d : α) :
    ∀ (l w : List α), (l ++ w).getD l.length d = w.getD 0 d
  | [], w => rfl
  | x :: xs, w => getD_append_mid d xs w

theorem getD_oob {α : Type} (d : α) :
    ∀ (l : List α) (i : Nat), l.length ≤ i → l.getD i d = d
  | [], 0, _ => rfl
  | [], _ + 1, _ => rfl
  | _ :: _, 0, h => by simp at h
  | _ :: xs, i + 1, h => getD_oob d xs i (Nat.le_of_succ_le_succ h)

theorem modNth_oob {α : Type} (f : α → α) :
    ∀ (l : List α) (i : Nat), l.length ≤ i → modNth f l i = l
  | [], _, _ => rfl
  | _ :: _, 0, h => by simp at h
  | x :: xs, i + 1, h =>
      congrArg (List.cons x) (modNth_oob f xs i (Nat.le_of_succ_le_succ h))

theorem length_updSplit (L : Ledger) (p : SplitPos) (f : GSplit → GSplit) :
    (updSplit L p f).length = L.length :=
  modNth_length _ L p.1

theorem length_setEntryDate (L : Ledger) (i : Nat) (d : ℤ) :
    (setEntryDate L i d).length = L.length :=
  modNth_length _ L i

theorem getEntryD_updSplit_ne (L : Ledger) (p : SplitPos)
    (f : GSplit → GSplit) (i : Nat) (h : p.1 ≠ i) :
    getEntryD (updSplit L p f) i = getEntryD L i :=
  getD_modNth_ne _ default L p.1 i h

theorem getEntryD_updSplit_eq (L : Ledger) (p : SplitPos)
    (f : GSplit → GSplit) (h : p.1 < L.length) :
    getEntryD (updSplit L p f) p.1 =
      { getEntryD L p.1 with
        splits := modNth f (getEntryD L p.1).splits p.2 } :=
  getD_modNth_self _ default L p.1 h

theorem updSplit_oob (L : Ledger) (p : SplitPos) (f : GSplit → GSplit)
    (h : L.length ≤ p.1) : updSplit L p f = L :=
  modNth_oob _ L p.1 h

theorem splits_length_updSplit (L : Ledger) (p : SplitPos)
    (f : GSplit → GSplit) (i : Nat) :
    (getEntryD (updSplit L p f) i).splits.length =
      (getEntryD L i).splits.length := by
  by_cases hp : p.1 = i
  · subst hp
    by_cases hl : p.1 < L.length
    · rw [getEntryD_updSplit_eq L p f hl]
      exact modNth_length _ _ _
    · rw [updSplit_oob L p f (Nat.le_of_not_lt hl)]
  · rw [getEntryD_updSplit_ne L p f i hp]

theorem getSplitD_updSplit_self (L : Ledger) (p : SplitPos)
    (f : GSplit → GSplit) (h : validPos L p) :
    getSplitD (updSplit L p f) p = f (getSplitD L p) := by
  rw [getSplitD, getEntryD_updSplit_eq L p f h.1]
  exact getD_modNth_self f default (getEntryD L p.1).splits p.2 h.2

theorem getSplitD_updSplit_ne (L : Ledger) (p : SplitPos)
    (f : GSplit → GSplit) (q : SplitPos) (h : q ≠ p) :
    getSplitD (updSplit L p f) q = getSplitD L q := by
  by_cases h1 : p.1 = q.1
  · have h2 : p.2 ≠ q.2 := by
      intro h2
      exact h (Prod.ext h1.symm h2.symm)
    by_cases hl : p.1 < L.length
    · rw [getSplitD, ← h1, getEntryD_updSplit_eq L p f hl]
      have := getD_modNth_ne f default (getEntryD L p.1).splits p.2 q.2 h2
      rw [getSplitD, ← h1]
      exact this
    · rw [updSplit_oob L p f (Nat.le_of_not_lt hl)]
  · rw [getSplitD, getEntryD_updSplit_ne L p f q.1 h1, getSplitD]

theorem getSplitD_setEntryDate (L : Ledger) (i : Nat) (d : ℤ)
    (q : SplitPos) : getSplitD (setEntryDate L i d) q = getSplitD L q := by
  by_cases h1 : i = q.1
  · subst h1
    by_cases hl : q.1 < L.length
    · rw [getSplitD, getEntryD, setEntryDate,
        getD_modNth_self _ default L q.1 hl]
      rfl
    · rw [setEntryDate, modNth_oob _ L q.1 (Nat.le_of_not_lt hl)]
  · rw [getSplitD, getEntryD, setEntryDate,
      getD_modNth_ne _ default L i q.1 h1]
    rfl

theorem splits_length_setEntryDate (L : Ledger) (i : Nat) (d : ℤ)
    (j : Nat) :
    (getEntryD (setEntryDate L i d) j).splits.length =
      (getEntryD L j).splits.length := by
  by_cases h1 : i = j
  · subst h1
    by_cases hl : i < L.length
    · rw [getEntryD, setEntryDate, getD_modNth_self _ default L i hl]
      rfl
    · rw [setEntryDate, modNth_oob _ L i (Nat.le_of_not_lt hl)]
  · rw [getEntryD, setEntryDate, getD_modNth_ne _ default L i j h1]
    rfl

theorem getEntryD_append_left (L : Ledger) (e : GEntry) (i : Nat)
    (h : i < L.length) : getEntryD (L ++ [e]) i = getEntryD L i :=
  getD_append_left default L [e] i h

theorem getEntryD_append_self (L : Ledger) (e : GEntry) :
    getEntryD (L ++ [e]) L.length = e :=
  getD_append_mid default L [e]

theorem getSplitD_append_left (L : Ledger) (e : GEntry) (p : SplitPos)
    (h : p.1 < L.length) : getSplitD (L ++ [e]) p = getSplitD L p := by
  rw [getSplitD, getEntryD_append_left L e p.1 h, getSplitD]

theorem validPos_updSplit (L : Ledger) (p q : SplitPos)
    (f : GSplit → GSplit) (h : validPos L q) :
    validPos (updSplit L p f) q := by
  refine ⟨?_, ?_⟩
  · rw [length_updSplit]
    exact h.1
  · rw [splits_length_updSplit]
    exact h.2

theorem validPos_setEntryDate (L : Ledger) (i : Nat) (d : ℤ) (q : SplitPos)
    (h : validPos L q) : validPos (setEntryDate L i d) q := by
  refine ⟨?_, ?_⟩
  · rw [length_setEntryDate]
    exact h.1
  · rw [splits_length_setEntryDate]
    exact h.2

theorem validPos_append (L : Ledger) (e : GEntry) (q : SplitPos)
    (h : validPos L q) : validPos (L ++ [e]) q := by
  refine ⟨?_, ?_⟩
  · rw [List.length_append]
    exact Nat.lt_of_lt_of_le h.1 (Nat.le_add_right _ _)
  · rw [getEntryD_append_left L e q.1 h.1]
    exact h.2

/-! ### Account split-list lemmas -/

theorem fm_congr {α β : Type} :
    ∀ (l : List α) (f g : α → Option β), (∀ x ∈ l, f x = g x) →
      l.filterMap f = l.filterMap g
  | [], _, _, _ => rfl
  | x :: xs, f, g, h => by
      rw [List.filterMap_cons, List.filterMap_cons,
        h x (List.mem_cons_self x xs),
        fm_congr xs f g (fun y hy => h y (List.mem_cons_of_mem x hy))]

theorem flatMap_congr_own {α β : Type} :
    ∀ (l : List α) (f g : α → List β), (∀ x ∈ l, f x = g x) →
      l.flatMap f = l.flatMap g
  | [], _, _, _ => rfl
  | x :: xs, f, g, h => by
      rw [List.flatMap_cons, List.flatMap_cons,
        h x (List.mem_cons_self x xs),
        flatMap_congr_own xs f g (fun y hy => h y (List.mem_cons_of_mem x hy))]

theorem mem_asp (L : Ledger) (a : String) (p : SplitPos) :
    p ∈ accountSplitPositions L a ↔
      validPos L p ∧ (getSplitD L p).acct = a := by
  rw [accountSplitPositions]
  simp only [List.mem_flatMap, List.mem_filterMap, List.mem_range]
  constructor
  · rintro ⟨i, hi, j, hj, hij⟩
    by_cases hacc : (getSplitD L (i, j)).acct = a
    · rw [if_pos hacc] at hij
      cases hij
      exact ⟨⟨hi, hj⟩, hacc⟩
    · rw [if_neg hacc] at hij
      cases hij
  · rintro ⟨⟨h1, h2⟩, h3⟩
    refine ⟨p.1, h1, p.2, h2, ?_⟩
    have hp : ((p.1, p.2) : SplitPos) = p := rfl
    rw [hp, if_pos h3]

theorem asp_nodup (L : Ledger) (a : String) :
    (accountSplitPositions L a).Nodup := by
  rw [accountSplitPositions]
  rw [List.nodup_flatMap]
  constructor
  · intro i _
    refine List.Nodup.filterMap ?_ (List.nodup_range _)
    intro j j' q hj hj'
    by_cases h1 : (getSplitD L (i, j)).acct = a
    · rw [if_pos h1] at hj
      by_cases h2 : (getSplitD L (i, j')).acct = a
      · rw [if_pos h2] at hj'
        rw [Option.mem_def] at hj hj'
        cases hj
        cases hj'
        rfl
      · rw [if_neg h2] at hj'
        cases hj'
    · rw [if_neg h1] at hj
      cases hj
  · refine List.Pairwise.imp ?_ (List.nodup_range _)
    intro i i' hne q hq hq'
    simp only [Function.onFun, List.mem_filterMap, List.mem_range] at hq hq'
    obtain ⟨j, _, hj⟩ := hq
    obtain ⟨j', _, hj'⟩ := hq'
    by_cases h1 : (getSplitD L (i, j)).acct = a
    · rw [if_pos h1] at hj
      by_cases h2 : (getSplitD L (i', j')).acct = a
      · rw [if_pos h2] at hj'
        cases hj
        cases hj'
        exact hne rfl
      · rw [if_neg h2] at hj'
        cases hj'
    · rw [if_neg h1] at hj
      cases hj

theorem asp_congr (L L' : Ledger) (a : String)
    (hlen : L'.length = L.length)
    (hsp : ∀ i, i < L.length →
      (getEntryD L' i).splits.length = (getEntryD L i).splits.length)
    (hacct : ∀ p, validPos L p →
      (getSplitD L' p).acct = (getSplitD L p).acct) :
    accountSplitPositions L' a = accountSplitPositions L a := by
  rw [accountSplitPositions, accountSplitPositions, hlen]
  refine flatMap_congr_own _ _ _ ?_
  intro i hi
  rw [List.mem_range] at hi
  rw [hsp i hi]
  refine fm_congr _ _ _ ?_
  intro j hj
  rw [List.mem_range] at hj
  rw [hacct (i, j) ⟨hi, hj⟩]

theorem asp_append (L : Ledger) (e : GEntry) (a : String) :
    accountSplitPositions (L ++ [e]) a =
      accountSplitPositions L a ++
        (List.range e.splits.length).filterMap (fun j =>
          if (e.splits.getD j default).acct = a then some (L.length, j)
          else none) := by
  rw [accountSplitPositions, accountSplitPositions]
  rw [List.length_append, List.length_singleton, List.range_succ,
    List.flatMap_append]
  congr 1
  · refine flatMap_congr_own _ _ _ ?_
    intro i hi
    rw [List.mem_range] at hi
    rw [getEntryD_append_left L e i hi]
    refine fm_congr _ _ _ ?_
    intro j _
    rw [getSplitD_append_left L e (i, j) hi]
  · rw [List.flatMap_cons, List.flatMap_nil, List.append_nil]
    rw [getEntryD_append_self]
    refine fm_congr _ _ _ ?_
    intro j _
    rw [show getSplitD (L ++ [e]) (L.length, j) =
        e.splits.getD j default from by
      show (getEntryD (L ++ [e]) L.length).splits.getD j default =
        e.splits.getD j default
      rw [getEntryD_append_self]]

theorem fm_update_mem {α β : Type} [DecidableEq α] (ps : List α) (p : α)
    (f g : α → Option β) (t u : β)
    (hother : ∀ q ∈ ps, q ≠ p → g q = f q) (hgp : g p = some t)
    (hu : u ∈ ps.filterMap g) : u = t ∨ u ∈ ps.filterMap f := by
  obtain ⟨q, hq, hgq⟩ := List.mem_filterMap.mp hu
  by_cases hqp : q = p
  · subst hqp
    rw [hgp] at hgq
    cases hgq
    exact Or.inl rfl
  · exact Or.inr (List.mem_filterMap.mpr
      ⟨q, hq, by rw [← hother q hq hqp]; exact hgq⟩)

theorem fm_update_nodup {α β : Type} [DecidableEq α] :
    ∀ (ps : List α), ps.Nodup → ∀ (f g : α → Option β) (p : α) (t : β),
      (∀ q ∈ ps, q ≠ p → g q = f q) → f p = none → g p = some t →
      t ∉ ps.filterMap f → (ps.filterMap f).Nodup → (ps.filterMap g).Nodup
  | [], _, _, _, _, _, _, _, _, _, _ => List.nodup_nil
  | x :: ps', hnd, f, g, p, t, hother, hfp, hgp, htf, hndf => by
      have hx : x ∉ ps' := (List.nodup_cons.mp hnd).1
      have hnd' : ps'.Nodup := (List.nodup_cons.mp hnd).2
      have hother' : ∀ q ∈ ps', q ≠ p → g q = f q :=
        fun q hq => hother q (List.mem_cons_of_mem x hq)
      by_cases hxp : x = p
      · subst hxp
        have hgEq : ps'.filterMap g = ps'.filterMap f := by
          refine fm_congr ps' g f ?_
          intro q hq
          exact hother' q hq (fun e => hx (e ▸ hq))
        rw [List.filterMap_cons, hgp, hgEq]
        rw [List.filterMap_cons, hfp] at htf hndf
        exact List.nodup_cons.mpr ⟨htf, hndf⟩
      · have hgx : g x = f x :=
          hother x (List.mem_cons_self x ps') hxp
        rw [List.filterMap_cons, hgx]
        rw [List.filterMap_cons] at htf hndf
        cases hfx : f x with
        | none =>
            rw [hfx] at htf hndf
            exact fm_update_nodup ps' hnd' f g p t hother' hfp hgp htf hndf
        | some v =>
            rw [hfx] at htf hndf
            have htf' : t ∉ ps'.filterMap f :=
              fun hmem => htf (List.mem_cons_of_mem v hmem)
            have hndf' := List.nodup_cons.mp hndf
            refine List.nodup_cons.mpr ⟨?_, ?_⟩
            · intro hvg
              rcases fm_update_mem ps' p f g t v hother' hgp hvg with h' | h'
              · exact htf (h' ▸ List.mem_cons_self v _)
              · exact hndf'.1 h'
            · exact fm_update_nodup ps' hnd' f g p t hother' hfp hgp htf'
                hndf'.2

/-! ### Index-construction lemmas -/

theorem mem_txidPairs (L : Ledger) (a : String) (t : Chars) (p : SplitPos) :
    (t, p) ∈ txidPairs L a ↔
      p ∈ accountSplitPositions L a ∧ tagOfAt L p = some t := by
  rw [txidPairs]
  simp only [List.mem_filterMap]
  constructor
  · rintro ⟨q, hq, hmap⟩
    cases htag : tagOfAt L q with
    | none => rw [htag] at hmap; cases hmap
    | some s =>
        rw [htag] at hmap
        simp only [Option.map_some'] at hmap
        injection hmap with h
        cases h
        exact ⟨hq, htag⟩
  · rintro ⟨h1, h2⟩
    exact ⟨p, h1, by rw [h2]; rfl⟩

theorem idx_lookup_sound (L : Ledger) (a : String) (tid : Chars)
    (e : Chars × SplitPos) (h : lookA (splitByTxid L a) tid = some e) :
    e.1 = tid ∧ e.2 ∈ accountSplitPositions L a ∧
      tagOfAt L e.2 = some tid := by
  rw [splitByTxid] at h
  obtain ⟨h1, h2⟩ := lookA_foldl_mem (txidPairs L a) tid e h
  have hpair : (tid, e.2) ∈ txidPairs L a := by
    have he : e = (tid, e.2) := by
      cases e
      simp only at h1
      rw [h1]
    exact he ▸ h2
  obtain ⟨hm, ht⟩ := (mem_txidPairs L a tid e.2).mp hpair
  exact ⟨h1, hm, ht⟩

theorem idx_keys_cover (L : Ledger) (a : String) (tid : Chars) (p : SplitPos)
    (h1 : p ∈ accountSplitPositions L a) (h2 : tagOfAt L p = some tid) :
    lookA (splitByTxid L a) tid ≠ none := by
  have hpair : (tid, p) ∈ txidPairs L a :=
    (mem_txidPairs L a tid p).mpr ⟨h1, h2⟩
  rw [splitByTxid]
  exact lookA_foldl_ne_none (txidPairs L a) tid p hpair

theorem pool_mem_char (L : Ledger) (a : String) (p : SplitPos) :
    p ∈ untaggedPool L a ↔
      p ∈ accountSplitPositions L a ∧
        p ∉ dictValues (splitByTxid L a) := by
  rw [untaggedPool, List.mem_filter]
  simp only [decide_eq_true_eq]

theorem pool_valid (L : Ledger) (a : String) (p : SplitPos)
    (h : p ∈ untaggedPool L a) :
    validPos L p ∧ (getSplitD L p).acct = a :=
  (mem_asp L a p).mp ((pool_mem_char L a p).mp h).1

theorem idx_value_not_pool (L : Ledger) (a : String) (e : Chars × SplitPos)
    (h : e ∈ splitByTxid L a) : e.2 ∉ untaggedPool L a := by
  intro hp
  have hv : e.2 ∈ dictValues (splitByTxid L a) :=
    List.mem_map.mpr ⟨e, h, rfl⟩
  exact ((pool_mem_char L a e.2).mp hp).2 hv

theorem idx_lookup_not_pool (L : Ledger) (a : String) (tid : Chars)
    (e : Chars × SplitPos) (h : lookA (splitByTxid L a) tid = some e) :
    e.2 ∉ untaggedPool L a :=
  idx_value_not_pool L a e (List.mem_of_find?_eq_some h)

/-- A tag present among the account's splits is a key of the index. -/
theorem tag_mem_keys (L : Ledger) (a : String) (t : Chars)
    (h : t ∈ tagsOf L a) : lookA (splitByTxid L a) t ≠ none := by
  rw [tagsOf] at h
  obtain ⟨p, hp, htag⟩ := List.mem_filterMap.mp h
  exact idx_keys_cover L a t p hp htag

/-! ### Branch equations and step lemmas for `processRecord` -/

theorem pr_dedup_close (ctx : RunCtx) (L : Ledger) (r : BankRecord)
    (e : Chars × SplitPos) (h : lookA ctx.idx r.internalId = some e)
    (hc : isclose (getSplitD L e.2).value r.amount) :
    processRecord ctx L r =
      (updSplit L e.2 (fun s => { s with recon := 'y' }), [], none) := by
  rw [processRecord, h]
  show (if isclose (getSplitD L e.2).value r.amount then
      (updSplit L e.2 (fun s => { s with recon := 'y' }),
        ([] : List RunErr), (none : Option SplitPos))
    else (L, [RunErr.amountMismatch r], none)) =
    (updSplit L e.2 (fun s => { s with recon := 'y' }), [], none)
  exact if_pos hc

theorem pr_dedup_far (ctx : RunCtx) (L : Ledger) (r : BankRecord)
    (e : Chars × SplitPos) (h : lookA ctx.idx r.internalId = some e)
    (hc : ¬ isclose (getSplitD L e.2).value r.amount) :
    processRecord ctx L r = (L, [RunErr.amountMismatch r], none) := by
  rw [processRecord, h]
  show (if isclose (getSplitD L e.2).value r.amount then
      (updSplit L e.2 (fun s => { s with recon := 'y' }),
        ([] : List RunErr), (none : Option SplitPos))
    else (L, [RunErr.amountMismatch r], none)) =
    (L, [RunErr.amountMismatch r], none)
  exact if_neg hc

theorem pr_fuzzy (ctx : RunCtx) (L : Ledger) (r : BankRecord) (p : SplitPos)
    (h : lookA ctx.idx r.internalId = none)
    (hp : pickMin L (txDate ctx r) (fuzzyCandidates ctx L r) = some p) :
    processRecord ctx L r =
      (setEntryDate
        (updSplit L p
          (fun s =>
            { s with memo := appendTag s.memo r.internalId r.remittance }))
        p.1 (txDate ctx r), [], some p) := by
  rw [processRecord, h, hp]

theorem pr_create (ctx : RunCtx) (L : Ledger) (r : BankRecord)
    (h : lookA ctx.idx r.internalId = none)
    (hp : pickMin L (txDate ctx r) (fuzzyCandidates ctx L r) = none) :
    processRecord ctx L r = (L ++ [newEntryFor ctx L r], [], none) := by
  rw [processRecord, h, hp]

theorem foldl_min_mem (L : Ledger) (t : ℤ) :
    ∀ (xs : List SplitPos) (x : SplitPos),
      (xs.foldl (fun b q => if dateDist L t q < dateDist L t b then q else b)
        x) ∈ x :: xs
  | [], x => List.mem_cons_self x []
  | y :: ys, x => by
      rw [List.foldl_cons]
      by_cases hc : dateDist L t y < dateDist L t x
      · rw [if_pos hc]
        have hmem := foldl_min_mem L t ys y
        rcases List.mem_cons.mp hmem with h | h
        · rw [h]
          exact List.mem_cons_of_mem x (List.mem_cons_self y ys)
        · exact List.mem_cons_of_mem x (List.mem_cons_of_mem y h)
      · rw [if_neg hc]
        have hmem := foldl_min_mem L t ys x
        rcases List.mem_cons.mp hmem with h | h
        · rw [h]
          exact List.mem_cons_self x (y :: ys)
        · exact List.mem_cons_of_mem x (List.mem_cons_of_mem y h)

theorem pickMin_mem (L : Ledger) (t : ℤ) :
    ∀ (l : List SplitPos) (p : SplitPos), pickMin L t l = some p → p ∈ l
  | [], p, h => by cases h
  | x :: xs, p, h => by
      rw [pickMin] at h
      injection h with h
      exact h ▸ foldl_min_mem L t xs x

theorem candidates_subset_pool (ctx : RunCtx) (L : Ledger) (r : BankRecord)
    (p : SplitPos) (h : p ∈ fuzzyCandidates ctx L r) : p ∈ ctx.pool :=
  (List.mem_filter.mp h).1

theorem pr_choice_pool (ctx : RunCtx) (L : Ledger) (r : BankRecord)
    (p : SplitPos) (h : (processRecord ctx L r).2.2 = some p) :
    p ∈ ctx.pool := by
  cases hl : lookA ctx.idx r.internalId with
  | some e =>
      by_cases hc : isclose (getSplitD L e.2).value r.amount
      · rw [pr_dedup_close ctx L r e hl hc] at h
        cases h
      · rw [pr_dedup_far ctx L r e hl hc] at h
        cases h
  | none =>
      cases hp : pickMin L (txDate ctx r) (fuzzyCandidates ctx L r) with
      | some q =>
          rw [pr_fuzzy ctx L r q hl hp] at h
          injection h with h
          exact h ▸ candidates_subset_pool ctx L r q
            (pickMin_mem L (txDate ctx r) (fuzzyCandidates ctx L r) q hp)
      | none =>
          rw [pr_create ctx L r hl hp] at h
          cases h

theorem pr_length_le (ctx : RunCtx) (L : Ledger) (r : BankRecord) :
    L.length ≤ (processRecord ctx L r).1.length := by
  cases hl : lookA ctx.idx r.internalId with
  | some e =>
      by_cases hc : isclose (getSplitD L e.2).value r.amount
      · rw [pr_dedup_close ctx L r e hl hc]
        exact Nat.le_of_eq (length_updSplit L e.2 _).symm
      · rw [pr_dedup_far ctx L r e hl hc]
  | none =>
      cases hp : pickMin L (txDate ctx r) (fuzzyCandidates ctx L r) with
      | some q =>
          rw [pr_fuzzy ctx L r q hl hp]
          refine Nat.le_of_eq ?_
          rw [length_setEntryDate, length_updSplit]
      | none =>
          rw [pr_create ctx L r hl hp]
          simp

theorem pr_valid (ctx : RunCtx) (L : Ledger) (r : BankRecord) (p : SplitPos)
    (h : validPos L p) : validPos (processRecord ctx L r).1 p := by
  cases hl : lookA ctx.idx r.internalId with
  | some e =>
      by_cases hc : isclose (getSplitD L e.2).value r.amount
      · rw [pr_dedup_close ctx L r e hl hc]
        exact validPos_updSplit L e.2 p _ h
      · rw [pr_dedup_far ctx L r e hl hc]
        exact h
  | none =>
      cases hp : pickMin L (txDate ctx r) (fuzzyCandidates ctx L r) with
      | some q =>
          rw [pr_fuzzy ctx L r q hl hp]
          exact validPos_setEntryDate _ q.1 _ p (validPos_updSplit L q p _ h)
      | none =>
          rw [pr_create ctx L r hl hp]
          exact validPos_append L _ p h

theorem pr_acct (ctx : RunCtx) (L : Ledger) (r : BankRecord) (p : SplitPos)
    (h : validPos L p) :
    (getSplitD (processRecord ctx L r).1 p).acct = (getSplitD L p).acct := by
  cases hl : lookA ctx.idx r.internalId with
  | some e =>
      by_cases hc : isclose (getSplitD L e.2).value r.amount
      · rw [pr_dedup_close ctx L r e hl hc]
        by_cases hpe : p = e.2
        · rw [hpe, getSplitD_updSplit_self L e.2 _ (hpe ▸ h)]
        · rw [getSplitD_updSplit_ne L e.2 _ p hpe]
      · rw [pr_dedup_far ctx L r e hl hc]
  | none =>
      cases hp : pickMin L (txDate ctx r) (fuzzyCandidates ctx L r) with
      | some q =>
          rw [pr_fuzzy ctx L r q hl hp]
          rw [getSplitD_setEntryDate]
          by_cases hpq : p = q
          · rw [hpq, getSplitD_updSplit_self L q _ (hpq ▸ h)]
          · rw [getSplitD_updSplit_ne L q _ p hpq]
      | none =>
          rw [pr_create ctx L r hl hp]
          rw [getSplitD_append_left L _ p h.1]

theorem pr_memo_stable (ctx : RunCtx) (L : Ledger) (r : BankRecord)
    (p : SplitPos) (h : validPos L p)
    (hch : (processRecord ctx L r).2.2 ≠ some p) :
    (getSplitD (processRecord ctx L r).1 p).memo = (getSplitD L p).memo := by
  cases hl : lookA ctx.idx r.internalId with
  | some e =>
      by_cases hc : isclose (getSplitD L e.2).value r.amount
      · rw [pr_dedup_close ctx L r e hl hc]
        by_cases hpe : p = e.2
        · rw [hpe, getSplitD_updSplit_self L e.2 _ (hpe ▸ h)]
        · rw [getSplitD_updSplit_ne L e.2 _ p hpe]
      · rw [pr_dedup_far ctx L r e hl hc]
  | none =>
      cases hp : pickMin L (txDate ctx r) (fuzzyCandidates ctx L r) with
      | some q =>
          have hpq : p ≠ q := by
            intro hpq
            rw [pr_fuzzy ctx L r q hl hp, hpq] at hch
            exact hch rfl
          rw [pr_fuzzy ctx L r q hl hp]
          rw [getSplitD_setEntryDate, getSplitD_updSplit_ne L q _ p hpq]
      | none =>
          rw [pr_create ctx L r hl hp]
          rw [getSplitD_append_left L _ p h.1]

theorem pr_choice_memo (ctx : RunCtx) (L : Ledger) (r : BankRecord)
    (p : SplitPos) (h : (processRecord ctx L r).2.2 = some p)
    (hv : validPos L p) :
    (getSplitD (processRecord ctx L r).1 p).memo =
      appendTag (getSplitD L p).memo r.internalId r.remittance := by
  cases hl : lookA ctx.idx r.internalId with
  | some e =>
      by_cases hc : isclose (getSplitD L e.2).value r.amount
      · rw [pr_dedup_close ctx L r e hl hc] at h
        cases h
      · rw [pr_dedup_far ctx L r e hl hc] at h
        cases h
  | none =>
      cases hp : pickMin L (txDate ctx r) (fuzzyCandidates ctx L r) with
      | some q =>
          rw [pr_fuzzy ctx L r q hl hp] at h
          injection h with h
          rw [← h]
          rw [pr_fuzzy ctx L r q hl hp]
          rw [getSplitD_setEntryDate,
            getSplitD_updSplit_self L q _ (h.symm ▸ hv)]
      | none =>
          rw [pr_create ctx L r hl hp] at h
          cases h

theorem pr_splits_len (ctx : RunCtx) (L : Ledger) (r : BankRecord) (i : Nat)
    (h : i < L.length) :
    (getEntryD (processRecord ctx L r).1 i).splits.length =
      (getEntryD L i).splits.length := by
  cases hl : lookA ctx.idx r.internalId with
  | some e =>
      by_cases hc : isclose (getSplitD L e.2).value r.amount
      · rw [pr_dedup_close ctx L r e hl hc]
        exact splits_length_updSplit L e.2 _ i
      · rw [pr_dedup_far ctx L r e hl hc]
  | none =>
      cases hp : pickMin L (txDate ctx r) (fuzzyCandidates ctx L r) with
      | some q =>
          rw [pr_fuzzy ctx L r q hl hp]
          rw [splits_length_setEntryDate, splits_length_updSplit]
      | none =>
          rw [pr_create ctx L r hl hp]
          rw [getEntryD_append_left L _ i h]

/-! ### Whole-run preservation lemmas -/

theorem runFull_nil (ctx : RunCtx) (L : Ledger) :
    runFull ctx L [] = (L, [], []) := rfl

theorem runFull_cons (ctx : RunCtx) (L : Ledger) (r : BankRecord)
    (rs : List BankRecord) :
    runFull ctx L (r :: rs) =
      ((runFull ctx (processRecord ctx L r).1 rs).1,
        (processRecord ctx L r).2.1 ++
          (runFull ctx (processRecord ctx L r).1 rs).2.1,
        (processRecord ctx L r).2.2 ::
          (runFull ctx (processRecord ctx L r).1 rs).2.2) := rfl

theorem run_choices_pool (ctx : RunCtx) :
    ∀ (rs : List BankRecord) (L : Ledger) (p : SplitPos),
      some p ∈ (runFull ctx L rs).2.2 → p ∈ ctx.pool
  | [], L, p, h => by cases h
  | r :: rs, L, p, h => by
      rw [runFull_cons] at h
      rcases List.mem_cons.mp h with h' | h'
      · exact pr_choice_pool ctx L r p h'.symm
      · exact run_choices_pool ctx rs (processRecord ctx L r).1 p h'

theorem run_length_le (ctx : RunCtx) :
    ∀ (rs : List BankRecord) (L : Ledger),
      L.length ≤ (runFull ctx L rs).1.length
  | [], L => Nat.le_refl _
  | r :: rs, L => by
      rw [runFull_cons]
      exact Nat.le_trans (pr_length_le ctx L r)
        (run_length_le ctx rs (processRecord ctx L r).1)

theorem run_valid (ctx : RunCtx) :
    ∀ (rs : List BankRecord) (L : Ledger) (p : SplitPos), validPos L p →
      validPos (runFull ctx L rs).1 p
  | [], L, p, h => h
  | r :: rs, L, p, h => by
      rw [runFull_cons]
      exact run_valid ctx rs (processRecord ctx L r).1 p
        (pr_valid ctx L r p h)

theorem run_acct (ctx : RunCtx) :
    ∀ (rs : List BankRecord) (L : Ledger) (p : SplitPos), validPos L p →
      (getSplitD (runFull ctx L rs).1 p).acct = (getSplitD L p).acct
  | [], L, p, _ => rfl
  | r :: rs, L, p, h => by
      rw [runFull_cons]
      rw [run_acct ctx rs (processRecord ctx L r).1 p (pr_valid ctx L r p h)]
      exact pr_acct ctx L r p h

theorem run_splits_len (ctx : RunCtx) :
    ∀ (rs : List BankRecord) (L : Ledger) (i : Nat), i < L.length →
      (getEntryD (runFull ctx L rs).1 i).splits.length =
        (getEntryD L i).splits.length
  | [], L, i, _ => rfl
  | r :: rs, L, i, h => by
      rw [runFull_cons]
      rw [run_splits_len ctx rs (processRecord ctx L r).1 i
        (Nat.lt_of_lt_of_le h (pr_length_le ctx L r))]
      exact pr_splits_len ctx L r i h

theorem run_memo_stable (ctx : RunCtx) :
    ∀ (rs : List BankRecord) (L : Ledger) (p : SplitPos), validPos L p →
      (∀ o ∈ (runFull ctx L rs).2.2, o ≠ some p) →
      (getSplitD (runFull ctx L rs).1 p).memo = (getSplitD L p).memo
  | [], L, p, _, _ => rfl
  | r :: rs, L, p, h, hch => by
      rw [runFull_cons]
      have h0 : (processRecord ctx L r).2.2 ≠ some p := by
        intro hc
        exact hch (processRecord ctx L r).2.2
          (by rw [runFull_cons]; exact List.mem_cons_self _ _) hc
      have hrest : ∀ o ∈ (runFull ctx (processRecord ctx L r).1 rs).2.2,
          o ≠ some p := by
        intro o ho
        exact hch o (by rw [runFull_cons]; exact List.mem_cons_of_mem _ ho)
      rw [run_memo_stable ctx rs (processRecord ctx L r).1 p
        (pr_valid ctx L r p h) hrest]
      exact pr_memo_stable ctx L r p h h0

/-- The tag carried by a position survives the rest of a run provided the
position is never fuzzy-chosen again. -/
theorem run_tag_stable (ctx : RunCtx) (rs : List BankRecord) (L : Ledger)
    (p : SplitPos) (t : Chars) (h : validPos L p)
    (htag : tagOfAt L p = some t)
    (hch : ∀ o ∈ (runFull ctx L rs).2.2, o ≠ some p) :
    tagOfAt (runFull ctx L rs).1 p = some t := by
  rw [tagOfAt, tagOfMemo, run_memo_stable ctx rs L p h hch]
  exact htag

/-! ### Shape of a newly created entry -/

theorem newEntryFor_eq_fresh (ctx : RunCtx) (L : Ledger) (r : BankRecord)
    (h1 : nameLookup ctx.groups r.remittance = none) :
    newEntryFor ctx L r =
      ⟨txDate ctx r, r.remittance, lookupCur ctx.curTable r.currency,
        [⟨ctx.acct, r.amount, mkTag r.internalId r.remittance, 'n'⟩]⟩ := by
  rw [newEntryFor, h1]

theorem newEntryFor_eq_emptyGroup (ctx : RunCtx) (L : Ledger)
    (r : BankRecord) (g : Chars × List SplitPos)
    (h1 : nameLookup ctx.groups r.remittance = some g)
    (h2 : lastOpt g.2 = none) :
    newEntryFor ctx L r =
      ⟨txDate ctx r, r.remittance, lookupCur ctx.curTable r.currency,
        [⟨ctx.acct, r.amount, mkTag r.internalId r.remittance, 'n'⟩]⟩ := by
  rw [newEntryFor, h1]
  show (match lastOpt g.2 with
    | some pp =>
        (⟨txDate ctx r, (getEntryD L pp.1).descr,
          lookupCur ctx.curTable r.currency,
          ⟨ctx.acct, r.amount, mkTag r.internalId r.remittance, 'n'⟩ ::
            fanoutSplits L r pp⟩ : GEntry)
    | none =>
        ⟨txDate ctx r, r.remittance, lookupCur ctx.curTable r.currency,
          [⟨ctx.acct, r.amount, mkTag r.internalId r.remittance, 'n'⟩]⟩) = _
  rw [h2]

theorem newEntryFor_eq_prev (ctx : RunCtx) (L : Ledger) (r : BankRecord)
    (g : Chars × List SplitPos) (pp : SplitPos)
    (h1 : nameLookup ctx.groups r.remittance = some g)
    (h2 : lastOpt g.2 = some pp) :
    newEntryFor ctx L r =
      ⟨txDate ctx r, (getEntryD L pp.1).descr,
        lookupCur ctx.curTable r.currency,
        ⟨ctx.acct, r.amount, mkTag r.internalId r.remittance, 'n'⟩ ::
          fanoutSplits L r pp⟩ := by
  rw [newEntryFor, h1]
  show (match lastOpt g.2 with
    | some pp =>
        (⟨txDate ctx r, (getEntryD L pp.1).descr,
          lookupCur ctx.curTable r.currency,
          ⟨ctx.acct, r.amount, mkTag r.internalId r.remittance, 'n'⟩ ::
            fanoutSplits L r pp⟩ : GEntry)
    | none =>
        ⟨txDate ctx r, r.remittance, lookupCur ctx.curTable r.currency,
          [⟨ctx.acct, r.amount, mkTag r.internalId r.remittance, 'n'⟩]⟩) = _
  rw [h2]

theorem newEntryFor_shape (ctx : RunCtx) (L : Ledger) (r : BankRecord) :
    ∃ fan : List GSplit,
      (newEntryFor ctx L r).splits =
        (⟨ctx.acct, r.amount, mkTag r.internalId r.remittance, 'n'⟩ :
          GSplit) :: fan ∧
      ∀ s ∈ fan, s.memo = [] := by
  cases h1 : nameLookup ctx.groups r.remittance with
  | none =>
      rw [newEntryFor_eq_fresh ctx L r h1]
      exact ⟨[], rfl, by simp⟩
  | some g =>
      cases h2 : lastOpt g.2 with
      | none =>
          rw [newEntryFor_eq_emptyGroup ctx L r g h1 h2]
          exact ⟨[], rfl, by simp⟩
      | some pp =>
          rw [newEntryFor_eq_prev ctx L r g pp h1 h2]
          refine ⟨fanoutSplits L r pp, rfl, ?_⟩
          intro s hs
          rw [fanoutSplits] at hs
          obtain ⟨js, _, hjs⟩ := List.mem_filterMap.mp hs
          by_cases hj : js.1 = pp.2
          · rw [if_pos hj] at hjs
            cases hjs
          · rw [if_neg hj] at hjs
            injection hjs with hjs
            rw [← hjs]

/-- Positions chosen by a run lie in the context's (fixed) pool; a
position outside the pool is never chosen. -/
theorem choices_avoid_nonpool (ctx : RunCtx) (rs : List BankRecord)
    (L : Ledger) (p : SplitPos) (hp : p ∉ ctx.pool) :
    ∀ o ∈ (runFull ctx L rs).2.2, o ≠ some p := by
  intro o ho hc
  exact hp (run_choices_pool ctx rs L p (hc ▸ ho))

theorem fm_id_cons_some {α : Type} (o : Option α) (l : List (Option α))
    (p : α) (h : o = some p) :
    (o :: l).filterMap id = p :: l.filterMap id := by
  rw [h, List.filterMap_cons]
  rfl

theorem fm_id_cons_none {α : Type} (o : Option α) (l : List (Option α))
    (h : o = none) : (o :: l).filterMap id = l.filterMap id := by
  rw [h, List.filterMap_cons]
  rfl

/-- After one run, every processed record's internal id is carried, parsed
from a memo, by some split of the account — provided ids are well formed,
untagged memos are free of the literal `TXID: `, and no split was
fuzzy-matched twice. -/
theorem runOne_tags (ctx : RunCtx) :
    ∀ (rs : List BankRecord) (L : Ledger),
      ((runFull ctx L rs).2.2.filterMap id).Nodup →
      (∀ p : SplitPos, some p ∈ (runFull ctx L rs).2.2 →
        containsPat txidPat (getSplitD L p).memo = false) →
      (∀ p ∈ ctx.pool, validPos L p ∧ (getSplitD L p).acct = ctx.acct) →
      (∀ e ∈ ctx.idx, validPos L e.2 ∧
        (getSplitD L e.2).acct = ctx.acct ∧ tagOfAt L e.2 = some e.1) →
      (∀ e ∈ ctx.idx, e.2 ∉ ctx.pool) →
      (∀ r ∈ rs, r.internalId ≠ [] ∧ ';' ∉ r.internalId) →
      ∀ r ∈ rs, ∃ p, validPos (runFull ctx L rs).1 p ∧
        (getSplitD (runFull ctx L rs).1 p).acct = ctx.acct ∧
        tagOfAt (runFull ctx L rs).1 p = some r.internalId
  | [], _, _, _, _, _, _, _ => fun r hr => absurd hr (by simp)
  | r0 :: rest, L, hA, hB, hP, hC, hD, hV => by
      have hA1 : (((runFull ctx (processRecord ctx L r0).1 rest).2.2).filterMap
          id).Nodup := by
        rw [runFull_cons] at hA
        cases hc0 : (processRecord ctx L r0).2.2 with
        | none => rw [fm_id_cons_none _ _ hc0] at hA; exact hA
        | some q =>
            rw [fm_id_cons_some _ _ q hc0] at hA
            exact (List.nodup_cons.mp hA).2
      have hB1 : ∀ p : SplitPos,
          some p ∈ (runFull ctx (processRecord ctx L r0).1 rest).2.2 →
          containsPat txidPat
            (getSplitD (processRecord ctx L r0).1 p).memo = false := by
        intro p hpmem
        have hpool : p ∈ ctx.pool :=
          run_choices_pool ctx rest (processRecord ctx L r0).1 p hpmem
        have hvp : validPos L p := (hP p hpool).1
        have hne : (processRecord ctx L r0).2.2 ≠ some p := by
          intro hc
          rw [runFull_cons] at hA
          rw [fm_id_cons_some _ _ p hc] at hA
          exact (List.nodup_cons.mp hA).1
            (List.mem_filterMap.mpr ⟨some p, hpmem, rfl⟩)
        rw [pr_memo_stable ctx L r0 p hvp hne]
        exact hB p (by rw [runFull_cons]; exact List.mem_cons_of_mem _ hpmem)
      have hP1 : ∀ p ∈ ctx.pool, validPos (processRecord ctx L r0).1 p ∧
          (getSplitD (processRecord ctx L r0).1 p).acct = ctx.acct := by
        intro p hp
        exact ⟨pr_valid ctx L r0 p (hP p hp).1,
          (pr_acct ctx L r0 p (hP p hp).1).trans (hP p hp).2⟩
      have hC1 : ∀ e ∈ ctx.idx, validPos (processRecord ctx L r0).1 e.2 ∧
          (getSplitD (processRecord ctx L r0).1 e.2).acct = ctx.acct ∧
          tagOfAt (processRecord ctx L r0).1 e.2 = some e.1 := by
        intro e he
        have h0 := hC e he
        have hne : (processRecord ctx L r0).2.2 ≠ some e.2 := by
          intro hc
          exact hD e he (pr_choice_pool ctx L r0 e.2 hc)
        refine ⟨pr_valid ctx L r0 e.2 h0.1,
          (pr_acct ctx L r0 e.2 h0.1).trans h0.2.1, ?_⟩
        rw [tagOfAt, tagOfMemo, pr_memo_stable ctx L r0 e.2 h0.1 hne]
        exact h0.2.2
      have hV1 : ∀ r ∈ rest, r.internalId ≠ [] ∧ ';' ∉ r.internalId :=
        fun r hr => hV r (List.mem_cons_of_mem r0 hr)
      have IH := runOne_tags ctx rest (processRecord ctx L r0).1
        hA1 hB1 hP1 hC1 hD hV1
      intro r hr
      rcases List.mem_cons.mp hr with hr0 | hrr
      · subst hr0
        cases hl : lookA ctx.idx r.internalId with
        | some e =>
            have he_idx : e ∈ ctx.idx := List.mem_of_find?_eq_some hl
            have he_key : e.1 = r.internalId := by
              have := List.find?_some hl
              simpa using this
            have h0 := hC e he_idx
            have hnp : e.2 ∉ ctx.pool := hD e he_idx
            have hne : (processRecord ctx L r).2.2 ≠ some e.2 := by
              intro hc
              exact hnp (pr_choice_pool ctx L r e.2 hc)
            have hv1 : validPos (processRecord ctx L r).1 e.2 :=
              pr_valid ctx L r e.2 h0.1
            have htag1 : tagOfAt (processRecord ctx L r).1 e.2 =
                some e.1 := by
              rw [tagOfAt, tagOfMemo,
                pr_memo_stable ctx L r e.2 h0.1 hne]
              exact h0.2.2
            refine ⟨e.2, ?_, ?_, ?_⟩
            · rw [runFull_cons]
              exact run_valid ctx rest _ e.2 hv1
            · rw [runFull_cons]
              rw [run_acct ctx rest _ e.2 hv1]
              exact (pr_acct ctx L r e.2 h0.1).trans h0.2.1
            · rw [runFull_cons]
              rw [← he_key]
              exact run_tag_stable ctx rest _ e.2 e.1 hv1 htag1
                (choices_avoid_nonpool ctx rest _ e.2 hnp)
        | none =>
            cases hpick : pickMin L (txDate ctx r) (fuzzyCandidates ctx L r)
              with
            | some q =>
                have hc0 : (processRecord ctx L r).2.2 = some q := by
                  rw [pr_fuzzy ctx L r q hl hpick]
                have hqpool : q ∈ ctx.pool :=
                  pr_choice_pool ctx L r q hc0
                have hqv : validPos L q := (hP q hqpool).1
                have hmemoL : containsPat txidPat
                    (getSplitD L q).memo = false := by
                  refine hB q ?_
                  rw [runFull_cons]
                  rw [← hc0]
                  exact List.mem_cons_self _ _
                have hid := hV r (List.mem_cons_self r rest)
                have htag1 : tagOfAt (processRecord ctx L r).1 q =
                    some r.internalId := by
                  rw [tagOfAt, tagOfMemo,
                    pr_choice_memo ctx L r q hc0 hqv]
                  exact tagOfMemo_appendTag _ _ _ hmemoL hid.1 hid.2
                have hnotin : ∀ o ∈ (runFull ctx (processRecord ctx L r).1
                    rest).2.2, o ≠ some q := by
                  intro o ho hoq
                  rw [runFull_cons] at hA
                  rw [fm_id_cons_some _ _ q hc0] at hA
                  exact (List.nodup_cons.mp hA).1
                    (List.mem_filterMap.mpr ⟨some q, hoq ▸ ho, rfl⟩)
                have hv1 : validPos (processRecord ctx L r).1 q :=
                  pr_valid ctx L r q hqv
                refine ⟨q, ?_, ?_, ?_⟩
                · rw [runFull_cons]
                  exact run_valid ctx rest _ q hv1
                · rw [runFull_cons]
                  rw [run_acct ctx rest _ q hv1]
                  exact (pr_acct ctx L r q hqv).trans (hP q hqpool).2
                · rw [runFull_cons]
                  exact run_tag_stable ctx rest _ q r.internalId hv1 htag1
                    hnotin
            | none =>
                have heq := pr_create ctx L r hl hpick
                obtain ⟨fan, hsplits, _⟩ := newEntryFor_shape ctx L r
                have hid := hV r (List.mem_cons_self r rest)
                have hlen1 : (processRecord ctx L r).1 =
                    L ++ [newEntryFor ctx L r] := by rw [heq]
                have hvalid1 : validPos (processRecord ctx L r).1
                    (L.length, 0) := by
                  rw [hlen1]
                  refine ⟨?_, ?_⟩
                  · rw [List.length_append]
                    simp
                  · rw [show ((L.length, 0) : SplitPos).1 = L.length from
                      rfl, getEntryD_append_self, hsplits]
                    simp
                have hsplit1 : getSplitD (processRecord ctx L r).1
                    (L.length, 0) =
                    ⟨ctx.acct, r.amount, mkTag r.internalId r.remittance,
                      'n'⟩ := by
                  rw [hlen1, getSplitD]
                  rw [show ((L.length, 0) : SplitPos).1 = L.length from rfl,
                    getEntryD_append_self, hsplits]
                  rfl
                have htag1 : tagOfAt (processRecord ctx L r).1
                    (L.length, 0) = some r.internalId := by
                  rw [tagOfAt, hsplit1]
                  exact tagOfMemo_mkTag _ _ hid.1 hid.2
                have hnp : (L.length, 0) ∉ ctx.pool := by
                  intro hmem
                  have := (hP (L.length, 0) hmem).1.1
                  simp at this
                refine ⟨(L.length, 0), ?_, ?_, ?_⟩
                · rw [runFull_cons]
                  exact run_valid ctx rest _ _ hvalid1
                · rw [runFull_cons]
                  rw [run_acct ctx rest _ _ hvalid1, hsplit1]
                · rw [runFull_cons]
                  exact run_tag_stable ctx rest _ _ r.internalId hvalid1
                    htag1 (choices_avoid_nonpool ctx rest _ _ hnp)
      · obtain ⟨p, h1, h2, h3⟩ := IH r hrr
        refine ⟨p, ?_, ?_, ?_⟩
        · rw [runFull_cons]
          exact h1
        · rw [runFull_cons]
          exact h2
        · rw [runFull_cons]
          exact h3

/-! ### Tag-multiset lemmas -/

theorem getSplitD_updSplit_proj {α : Type} (g : GSplit → α) (L : Ledger)
    (p : SplitPos) (f : GSplit → GSplit) (hf : ∀ s, g (f s) = g s)
    (q : SplitPos) :
    g (getSplitD (updSplit L p f) q) = g (getSplitD L q) := by
  by_cases hq : q = p
  · subst hq
    by_cases hv : validPos L q
    · rw [getSplitD_updSplit_self L q f hv, hf]
    · by_cases h1 : q.1 < L.length
      · have h2 : ¬ q.2 < (getEntryD L q.1).splits.length :=
          fun h2 => hv ⟨h1, h2⟩
        rw [getSplitD, getEntryD_updSplit_eq L q f h1]
        show g ((modNth f (getEntryD L q.1).splits q.2).getD q.2 default) = _
        rw [modNth_oob f _ q.2 (Nat.le_of_not_lt h2)]
        rfl
      · rw [updSplit_oob L q f (Nat.le_of_not_lt h1)]
  · rw [getSplitD_updSplit_ne L p f q hq]

theorem tagOfMemo_nil : tagOfMemo ([] : Chars) = none := rfl

theorem tagsOf_congr (L L' : Ledger) (a : String)
    (hlen : L'.length = L.length)
    (hsp : ∀ i, i < L.length →
      (getEntryD L' i).splits.length = (getEntryD L i).splits.length)
    (hacct : ∀ p, validPos L p →
      (getSplitD L' p).acct = (getSplitD L p).acct)
    (hmemo : ∀ p, validPos L p → tagOfAt L' p = tagOfAt L p) :
    tagsOf L' a = tagsOf L a := by
  rw [tagsOf, tagsOf, asp_congr L L' a hlen hsp hacct]
  exact fm_congr _ _ _
    (fun p hp => hmemo p ((mem_asp L a p).mp hp).1)

theorem getSplitD_append_new (L : Ledger) (e : GEntry) (j : Nat) :
    getSplitD (L ++ [e]) (L.length, j) = e.splits.getD j default := by
  show (getEntryD (L ++ [e]) L.length).splits.getD j default = _
  rw [getEntryD_append_self]

theorem tagsOf_append (L : Ledger) (e : GEntry) (a : String) :
    tagsOf (L ++ [e]) a =
      tagsOf L a ++
        (List.range e.splits.length).filterMap (fun j =>
          if (e.splits.getD j default).acct = a then
            tagOfMemo (e.splits.getD j default).memo
          else none) := by
  rw [tagsOf, tagsOf, asp_append, List.filterMap_append]
  congr 1
  · refine fm_congr _ _ _ ?_
    intro p hp
    rw [tagOfAt, tagOfAt,
      getSplitD_append_left L e p ((mem_asp L a p).mp hp).1.1]
  · rw [List.filterMap_filterMap]
    refine fm_congr _ _ _ ?_
    intro j _
    by_cases hj : (e.splits.getD j default).acct = a
    · rw [if_pos hj, if_pos hj]
      show tagOfAt (L ++ [e]) (L.length, j) =
        tagOfMemo (e.splits.getD j default).memo
      rw [tagOfAt, getSplitD_append_new]
    · rw [if_neg hj, if_neg hj]
      rfl

theorem tagOfMemo_appendTag_keep (m tid d t0 : Chars)
    (hm : tagOfMemo m = some t0) :
    tagOfMemo (appendTag m tid d) = some t0 := by
  have hne : m ≠ [] := by
    intro h
    rw [h] at hm
    cases hm
  have he : appendTag m tid d = m ++ ';' :: (' ' :: mkTag tid d) := by
    rw [appendTag, if_neg hne]
    simp [List.append_assoc]
  rw [tagOfMemo, he]
  exact findTag_mono_semi m (' ' :: mkTag tid d) t0 hm

theorem getD_mem_own {α : Type} (d : α) :
    ∀ (l : List α) (j : Nat), j < l.length → l.getD j d ∈ l
  | [], _, h => absurd h (by simp)
  | x :: xs, 0, _ => List.mem_cons_self x xs
  | x :: xs, j + 1, h =>
      List.mem_cons_of_mem x (getD_mem_own d xs j (Nat.lt_of_succ_lt_succ h))

theorem newEntry_tags (ctx : RunCtx) (L : Ledger) (r : BankRecord)
    (h1 : r.internalId ≠ []) (h2 : ';' ∉ r.internalId) :
    (List.range (newEntryFor ctx L r).splits.length).filterMap (fun j =>
      if ((newEntryFor ctx L r).splits.getD j default).acct = ctx.acct then
        tagOfMemo ((newEntryFor ctx L r).splits.getD j default).memo
      else none) = [r.internalId] := by
  obtain ⟨fan, hsplits, hfan⟩ := newEntryFor_shape ctx L r
  rw [hsplits]
  rw [List.length_cons, List.range_succ_eq_map, List.filterMap_cons]
  have h0 : (((⟨ctx.acct, r.amount, mkTag r.internalId r.remittance,
      'n'⟩ : GSplit) :: fan).getD 0 default) =
      ⟨ctx.acct, r.amount, mkTag r.internalId r.remittance, 'n'⟩ := rfl
  rw [h0, if_pos rfl, tagOfMemo_mkTag r.internalId r.remittance h1 h2]
  rw [List.filterMap_map]
  have hrest : (List.range fan.length).filterMap
      ((fun j =>
        if (((⟨ctx.acct, r.amount, mkTag r.internalId r.remittance,
            'n'⟩ : GSplit) :: fan).getD j default).acct = ctx.acct then
          tagOfMemo (((⟨ctx.acct, r.amount,
            mkTag r.internalId r.remittance, 'n'⟩ : GSplit) ::
              fan).getD j default).memo
        else none) ∘ Nat.succ) = [] := by
    rw [List.filterMap_eq_nil_iff]
    intro j hj
    rw [List.mem_range] at hj
    have hget : ((⟨ctx.acct, r.amount, mkTag r.internalId r.remittance,
        'n'⟩ : GSplit) :: fan).getD (j + 1) default = fan.getD j default :=
      rfl
    have hmem : fan.getD j default ∈ fan := getD_mem_own default fan j hj
    have hmemo : (fan.getD j default).memo = [] := hfan _ hmem
    show (if (((⟨ctx.acct, r.amount, mkTag r.internalId r.remittance,
        'n'⟩ : GSplit) :: fan).getD (j + 1) default).acct = ctx.acct then
      tagOfMemo (((⟨ctx.acct, r.amount, mkTag r.internalId r.remittance,
        'n'⟩ : GSplit) :: fan).getD (j + 1) default).memo
      else none) = none
    rw [hget, hmemo]
    by_cases ha : (fan.getD j default).acct = ctx.acct
    · rw [if_pos ha]
      exact tagOfMemo_nil
    · rw [if_neg ha]
  rw [hrest]

/-! ### Per-branch length and state equations -/

theorem pr_len_close (ctx : RunCtx) (L : Ledger) (r : BankRecord)
    (e : Chars × SplitPos) (h : lookA ctx.idx r.internalId = some e)
    (hc : isclose (getSplitD L e.2).value r.amount) :
    (processRecord ctx L r).1.length = L.length := by
  rw [pr_dedup_close ctx L r e h hc]
  show (updSplit L e.2 (fun s => { s with recon := 'y' })).length = L.length
  rw [length_updSplit]

theorem pr_len_far (ctx : RunCtx) (L : Ledger) (r : BankRecord)
    (e : Chars × SplitPos) (h : lookA ctx.idx r.internalId = some e)
    (hc : ¬ isclose (getSplitD L e.2).value r.amount) :
    (processRecord ctx L r).1.length = L.length := by
  rw [pr_dedup_far ctx L r e h hc]

theorem pr_len_fuzzy (ctx : RunCtx) (L : Ledger) (r : BankRecord)
    (q : SplitPos) (h : lookA ctx.idx r.internalId = none)
    (hp : pickMin L (txDate ctx r) (fuzzyCandidates ctx L r) = some q) :
    (processRecord ctx L r).1.length = L.length := by
  rw [pr_fuzzy ctx L r q h hp]
  show (setEntryDate (updSplit L q (fun s => { s with memo := appendTag s.memo r.internalId r.remittance })) q.1 (txDate ctx r)).length = L.length
  rw [length_setEntryDate, length_updSplit]

theorem pr_fst_far (ctx : RunCtx) (L : Ledger) (r : BankRecord)
    (e : Chars × SplitPos) (h : lookA ctx.idx r.internalId = some e)
    (hc : ¬ isclose (getSplitD L e.2).value r.amount) :
    (processRecord ctx L r).1 = L := by
  rw [pr_dedup_far ctx L r e h hc]

theorem pr_fst_create (ctx : RunCtx) (L : Ledger) (r : BankRecord)
    (h : lookA ctx.idx r.internalId = none)
    (hp : pickMin L (txDate ctx r) (fuzzyCandidates ctx L r) = none) :
    (processRecord ctx L r).1 = L ++ [newEntryFor ctx L r] := by
  rw [pr_create ctx L r h hp]

/-- In the non-create branches, a split's parsed tag at any valid position
other than the chosen one is preserved; this gives memo preservation for
the pool invariant. -/
theorem pr_tag_stable (ctx : RunCtx) (L : Ledger) (r : BankRecord)
    (p : SplitPos) (h : validPos L p)
    (hch : (processRecord ctx L r).2.2 ≠ some p) :
    tagOfAt (processRecord ctx L r).1 p = tagOfAt L p := by
  rw [tagOfAt, tagOfAt, tagOfMemo, tagOfMemo,
    pr_memo_stable ctx L r p h hch]

/-- Tag uniqueness is preserved by one account run, given well-formed
distinct ids and `TXID: `-free untagged memos. -/
theorem runOne_nodup (ctx : RunCtx) :
    ∀ (rs : List BankRecord) (L : Ledger) (used : List Chars),
      (tagsOf L ctx.acct).Nodup →
      (∀ t ∈ tagsOf L ctx.acct, lookA ctx.idx t ≠ none ∨ t ∈ used) →
      (∀ r ∈ rs, r.internalId ∉ used) →
      (rs.map (fun r => r.internalId)).Nodup →
      (∀ r ∈ rs, r.internalId ≠ [] ∧ ';' ∉ r.internalId) →
      (∀ p ∈ ctx.pool, validPos L p ∧ (getSplitD L p).acct = ctx.acct) →
      (∀ p ∈ ctx.pool, containsPat txidPat (getSplitD L p).memo = false ∨
        (tagOfAt L p).isSome = true) →
      (tagsOf (runFull ctx L rs).1 ctx.acct).Nodup
  | [], _, _, hT, _, _, _, _, _, _ => hT
  | r0 :: rest, L, used, hT, hSub, hU, hI, hV, hP, hPM => by
      rw [runFull_cons]
      rw [List.map_cons] at hI
      have hid0 := hV r0 (List.mem_cons_self r0 rest)
      have hI' : (rest.map (fun r => r.internalId)).Nodup :=
        (List.nodup_cons.mp hI).2
      have hU' : ∀ r ∈ rest, r.internalId ∉ (r0.internalId :: used) := by
        intro r hr hmem
        rcases List.mem_cons.mp hmem with h' | h'
        · exact (List.nodup_cons.mp hI).1
            (h' ▸ List.mem_map.mpr ⟨r, hr, rfl⟩)
        · exact hU r (List.mem_cons_of_mem r0 hr) h'
      have hUsame : ∀ r ∈ rest, r.internalId ∉ used :=
        fun r hr => hU r (List.mem_cons_of_mem r0 hr)
      have hV' : ∀ r ∈ rest, r.internalId ≠ [] ∧ ';' ∉ r.internalId :=
        fun r hr => hV r (List.mem_cons_of_mem r0 hr)
      cases hl : lookA ctx.idx r0.internalId with
      | some e =>
          by_cases hc : isclose (getSplitD L e.2).value r0.amount
          · have hc0 : (processRecord ctx L r0).2.2 = none := by
              rw [pr_dedup_close ctx L r0 e hl hc]
            have htagsEq : tagsOf (processRecord ctx L r0).1 ctx.acct =
                tagsOf L ctx.acct :=
              tagsOf_congr L _ ctx.acct (pr_len_close ctx L r0 e hl hc)
                (fun i hi => pr_splits_len ctx L r0 i hi)
                (fun p hv => pr_acct ctx L r0 p hv)
                (fun p hv => pr_tag_stable ctx L r0 p hv
                  (by rw [hc0]; simp))
            refine runOne_nodup ctx rest _ used (htagsEq ▸ hT)
              (fun t ht => hSub t (htagsEq ▸ ht)) hUsame hI' hV' ?_ ?_
            · intro p hp
              exact ⟨pr_valid ctx L r0 p (hP p hp).1,
                (pr_acct ctx L r0 p (hP p hp).1).trans (hP p hp).2⟩
            · intro p hp
              rw [tagOfAt, tagOfMemo,
                pr_memo_stable ctx L r0 p (hP p hp).1 (by rw [hc0]; simp)]
              exact hPM p hp
          · rw [pr_fst_far ctx L r0 e hl hc]
            exact runOne_nodup ctx rest L used hT hSub hUsame hI' hV' hP hPM
      | none =>
          have hfresh : r0.internalId ∉ tagsOf L ctx.acct := by
            intro hmem
            rcases hSub r0.internalId hmem with h' | h'
            · exact h' hl
            · exact hU r0 (List.mem_cons_self r0 rest) h'
          cases hpick : pickMin L (txDate ctx r0)
              (fuzzyCandidates ctx L r0) with
          | some q =>
              have hc0 : (processRecord ctx L r0).2.2 = some q := by
                rw [pr_fuzzy ctx L r0 q hl hpick]
              have hqpool : q ∈ ctx.pool := pr_choice_pool ctx L r0 q hc0
              have hqv : validPos L q := (hP q hqpool).1
              have hnotq : ∀ p : SplitPos, p ≠ q →
                  (processRecord ctx L r0).2.2 ≠ some p := by
                intro p hpq hcon
                rw [hc0] at hcon
                injection hcon with hcon
                exact hpq hcon.symm
              have hmemo_ne : ∀ p, validPos L p → p ≠ q →
                  tagOfAt (processRecord ctx L r0).1 p = tagOfAt L p :=
                fun p hv hpq => pr_tag_stable ctx L r0 p hv (hnotq p hpq)
              have hmemo_q : (getSplitD (processRecord ctx L r0).1 q).memo =
                  appendTag (getSplitD L q).memo r0.internalId
                    r0.remittance :=
                pr_choice_memo ctx L r0 q hc0 hqv
              rcases hPM q hqpool with hfree | hsome
              · have htagq_old : tagOfAt L q = none := by
                  rw [tagOfAt, tagOfMemo]
                  exact findTag_none_of_not_contains txidPat _ hfree
                have htagq_new : tagOfAt (processRecord ctx L r0).1 q =
                    some r0.internalId := by
                  rw [tagOfAt, tagOfMemo, hmemo_q]
                  exact tagOfMemo_appendTag _ _ _ hfree hid0.1 hid0.2
                have hpos1 : accountSplitPositions
                    (processRecord ctx L r0).1 ctx.acct =
                    accountSplitPositions L ctx.acct :=
                  asp_congr L _ ctx.acct (pr_len_fuzzy ctx L r0 q hl hpick)
                    (fun i hi => pr_splits_len ctx L r0 i hi)
                    (fun p hv => pr_acct ctx L r0 p hv)
                have hT1 : (tagsOf (processRecord ctx L r0).1
                    ctx.acct).Nodup := by
                  rw [tagsOf, hpos1]
                  exact fm_update_nodup (accountSplitPositions L ctx.acct)
                    (asp_nodup L ctx.acct) (tagOfAt L) _ q r0.internalId
                    (fun p hp hpq => hmemo_ne p
                      ((mem_asp L ctx.acct p).mp hp).1 hpq)
                    htagq_old htagq_new hfresh hT
                have hSub1 : ∀ t ∈ tagsOf (processRecord ctx L r0).1
                    ctx.acct,
                    lookA ctx.idx t ≠ none ∨
                      t ∈ r0.internalId :: used := by
                  intro t ht
                  rw [tagsOf, hpos1] at ht
                  rcases fm_update_mem (accountSplitPositions L ctx.acct) q
                      (tagOfAt L) _ r0.internalId t
                      (fun p hp hpq => hmemo_ne p
                        ((mem_asp L ctx.acct p).mp hp).1 hpq)
                      htagq_new ht with h' | h'
                  · exact Or.inr (h' ▸ List.mem_cons_self _ _)
                  · rcases hSub t h' with h'' | h''
                    · exact Or.inl h''
                    · exact Or.inr (List.mem_cons_of_mem _ h'')
                refine runOne_nodup ctx rest _ (r0.internalId :: used) hT1
                  hSub1 hU' hI' hV' ?_ ?_
                · intro p hp
                  exact ⟨pr_valid ctx L r0 p (hP p hp).1,
                    (pr_acct ctx L r0 p (hP p hp).1).trans (hP p hp).2⟩
                · intro p hp
                  by_cases hpq : p = q
                  · subst hpq
                    exact Or.inr (by rw [htagq_new]; rfl)
                  · rcases hPM p hp with h' | h'
                    · refine Or.inl ?_
                      rw [pr_memo_stable ctx L r0 p (hP p hp).1
                        (hnotq p hpq)]
                      exact h'
                    · refine Or.inr ?_
                      rw [hmemo_ne p (hP p hp).1 hpq]
                      exact h'
              · obtain ⟨t0, ht0⟩ := Option.isSome_iff_exists.mp hsome
                have htagq_new : tagOfAt (processRecord ctx L r0).1 q =
                    some t0 := by
                  rw [tagOfAt, tagOfMemo, hmemo_q]
                  exact tagOfMemo_appendTag_keep _ _ _ t0 ht0
                have htagsEq : tagsOf (processRecord ctx L r0).1 ctx.acct =
                    tagsOf L ctx.acct := by
                  refine tagsOf_congr L _ ctx.acct
                    (pr_len_fuzzy ctx L r0 q hl hpick)
                    (fun i hi => pr_splits_len ctx L r0 i hi)
                    (fun p hv => pr_acct ctx L r0 p hv) ?_
                  intro p hv
                  by_cases hpq : p = q
                  · subst hpq
                    rw [htagq_new, ht0]
                  · exact hmemo_ne p hv hpq
                refine runOne_nodup ctx rest _ (r0.internalId :: used)
                  (htagsEq ▸ hT) ?_ hU' hI' hV' ?_ ?_
                · intro t ht
                  rcases hSub t (htagsEq ▸ ht) with h' | h'
                  · exact Or.inl h'
                  · exact Or.inr (List.mem_cons_of_mem _ h')
                · intro p hp
                  exact ⟨pr_valid ctx L r0 p (hP p hp).1,
                    (pr_acct ctx L r0 p (hP p hp).1).trans (hP p hp).2⟩
                · intro p hp
                  by_cases hpq : p = q
                  · subst hpq
                    exact Or.inr (by rw [htagq_new]; rfl)
                  · rcases hPM p hp with h' | h'
                    · refine Or.inl ?_
                      rw [pr_memo_stable ctx L r0 p (hP p hp).1
                        (hnotq p hpq)]
                      exact h'
                    · refine Or.inr ?_
                      rw [hmemo_ne p (hP p hp).1 hpq]
                      exact h'
          | none =>
              rw [pr_fst_create ctx L r0 hl hpick]
              have htags1 : tagsOf (L ++ [newEntryFor ctx L r0]) ctx.acct =
                  tagsOf L ctx.acct ++ [r0.internalId] := by
                rw [tagsOf_append]
                rw [newEntry_tags ctx L r0 hid0.1 hid0.2]
              have hT1 : (tagsOf (L ++ [newEntryFor ctx L r0])
                  ctx.acct).Nodup := by
                rw [htags1, ← List.concat_eq_append]
                exact List.Nodup.concat hfresh hT
              have hSub1 : ∀ t ∈ tagsOf (L ++ [newEntryFor ctx L r0])
                  ctx.acct,
                  lookA ctx.idx t ≠ none ∨ t ∈ r0.internalId :: used := by
                intro t ht
                rw [htags1] at ht
                rcases List.mem_append.mp ht with h' | h'
                · rcases hSub t h' with h'' | h''
                  · exact Or.inl h''
                  · exact Or.inr (List.mem_cons_of_mem _ h'')
                · exact Or.inr (by
                    rw [List.mem_singleton] at h'
                    exact h' ▸ List.mem_cons_self _ _)
              refine runOne_nodup ctx rest _ (r0.internalId :: used) hT1
                hSub1 hU' hI' hV' ?_ ?_
              · intro p hp
                refine ⟨validPos_append L _ p (hP p hp).1, ?_⟩
                rw [getSplitD_append_left L _ p (hP p hp).1.1]
                exact (hP p hp).2
              · intro p hp
                rw [tagOfAt, tagOfMemo,
                  getSplitD_append_left L _ p (hP p hp).1.1]
                exact hPM p hp

/-! ### Second-run and context-construction lemmas -/

theorem run_dedup_length (ctx : RunCtx) :
    ∀ (rs : List BankRecord) (L : Ledger),
      (∀ r ∈ rs, lookA ctx.idx r.internalId ≠ none) →
      (runFull ctx L rs).1.length = L.length
  | [], _, _ => rfl
  | r :: rs, L, h => by
      rw [runFull_cons]
      have hrest : ∀ r' ∈ rs, lookA ctx.idx r'.internalId ≠ none :=
        fun r' hr' => h r' (List.mem_cons_of_mem r hr')
      rw [run_dedup_length ctx rs (processRecord ctx L r).1 hrest]
      cases hl : lookA ctx.idx r.internalId with
      | none => exact absurd hl (h r (List.mem_cons_self r rs))
      | some e =>
          by_cases hc : isclose (getSplitD L e.2).value r.amount
          · exact pr_len_close ctx L r e hl hc
          · exact pr_len_far ctx L r e hl hc

theorem idx_entry_sound (L : Ledger) (a : String) (e : Chars × SplitPos)
    (h : e ∈ splitByTxid L a) :
    validPos L e.2 ∧ (getSplitD L e.2).acct = a ∧
      tagOfAt L e.2 = some e.1 := by
  rw [splitByTxid] at h
  rcases mem_foldl_insA (txidPairs L a) [] e h with h' | h'
  · cases h'
  · have hpair : (e.1, e.2) ∈ txidPairs L a := by
      cases e
      exact h'
    obtain ⟨hm, ht⟩ := (mem_txidPairs L a e.1 e.2).mp hpair
    obtain ⟨hv, ha⟩ := (mem_asp L a e.2).mp hm
    exact ⟨hv, ha, ht⟩

theorem mkCtx_acct (L : Ledger) (a : String) (dk : DateKey)
    (tbl : List String) : (mkCtx L a dk tbl).acct = a := rfl

theorem mkCtx_idx (L : Ledger) (a : String) (dk : DateKey)
    (tbl : List String) : (mkCtx L a dk tbl).idx = splitByTxid L a := rfl

theorem mkCtx_pool (L : Ledger) (a : String) (dk : DateKey)
    (tbl : List String) : (mkCtx L a dk tbl).pool = untaggedPool L a := rfl

/-- At `mkCtx`, the hypotheses of the two main run lemmas hold. -/
theorem mkCtx_index_sound (L : Ledger) (a : String) (dk : DateKey)
    (tbl : List String) :
    ∀ e ∈ (mkCtx L a dk tbl).idx,
      validPos L e.2 ∧ (getSplitD L e.2).acct = (mkCtx L a dk tbl).acct ∧
        tagOfAt L e.2 = some e.1 := by
  intro e he
  exact idx_entry_sound L a e he

theorem mkCtx_pool_sound (L : Ledger) (a : String) (dk : DateKey)
    (tbl : List String) :
    ∀ p ∈ (mkCtx L a dk tbl).pool,
      validPos L p ∧ (getSplitD L p).acct = (mkCtx L a dk tbl).acct := by
  intro p hp
  exact pool_valid L a p hp

theorem mkCtx_idx_disjoint (L : Ledger) (a : String) (dk : DateKey)
    (tbl : List String) :
    ∀ e ∈ (mkCtx L a dk tbl).idx, e.2 ∉ (mkCtx L a dk tbl).pool := by
  intro e he
  exact idx_value_not_pool L a e he

/-! ### Balance-selection characterization -/

theorem selectFrom_spec (d : List (String × ℚ)) :
    ∀ (ks : List String),
      selectFrom d ks =
        match ks.find? (fun k => (lookA d k).isSome) with
        | some k => (lookA d k).map (fun e => e.2)
        | none => none
  | [] => rfl
  | k :: ks => by
      cases hk : lookA d k with
      | some e =>
          rw [selectFrom, hk,
            List.find?_cons_of_pos _ (by rw [hk]; rfl)]
          show some e.2 = (lookA d k).map (fun e => e.2)
          rw [hk]
          rfl
      | none =>
          rw [selectFrom, hk,
            List.find?_cons_of_neg _ (by rw [hk]; simp)]
          exact selectFrom_spec d ks

/-- The new entry's currency is always the raw table lookup, whatever the
recurring-pattern branch taken. -/
theorem newEntryFor_currency (ctx : RunCtx) (L : Ledger) (r : BankRecord) :
    (newEntryFor ctx L r).currency = lookupCur ctx.curTable r.currency := by
  cases h1 : nameLookup ctx.groups r.remittance with
  | none => rw [newEntryFor_eq_fresh ctx L r h1]
  | some g =>
      cases h2 : lastOpt g.2 with
      | none => rw [newEntryFor_eq_emptyGroup ctx L r g h1 h2]
      | some pp => rw [newEntryFor_eq_prev ctx L r g pp h1 h2]

/-! ### Claim theorems -/

/-- Claim C1: when a booked record has no tagged split for its internal id
and no fuzzy candidate, but a recurring pattern exists under its remittance
text, the new entry consists of the primary split (value = the record's
amount, on the configured account, with the tag memo) followed by one split
per split of the most recent prior tagged entry other than the matched one,
each valued `record.amount * (other.value / prev.value)` and targeting the
other split's account; the entry's description is copied from the prior
entry, and no error is emitted. -/
theorem claim1_fanout (ctx : RunCtx) (L : Ledger) (r : BankRecord)
    (g : Chars × List SplitPos) (pp : SplitPos)
    (h1 : lookA ctx.idx r.internalId = none)
    (h2 : fuzzyCandidates ctx L r = [])
    (h3 : nameLookup ctx.groups r.remittance = some g)
    (h4 : lastOpt g.2 = some pp) :
    processRecord ctx L r =
      (L ++ [⟨txDate ctx r, (getEntryD L pp.1).descr,
        lookupCur ctx.curTable r.currency,
        ⟨ctx.acct, r.amount, mkTag r.internalId r.remittance, 'n'⟩ ::
          (getEntryD L pp.1).splits.enum.filterMap (fun js =>
            if js.1 = pp.2 then none
            else some ⟨js.2.acct,
              r.amount * (js.2.value / (getSplitD L pp).value),
              [], 'n'⟩)⟩],
        [], none) := by
  have hpick : pickMin L (txDate ctx r) (fuzzyCandidates ctx L r) =
      none := by
    rw [h2]
    rfl
  rw [pr_create ctx L r h1 hpick, newEntryFor_eq_prev ctx L r g pp h3 h4,
    fanoutSplits]

theorem claim1_fanout_witness :
    lookA exCtx1.idx exR1.internalId = none ∧
    fuzzyCandidates exCtx1 exL1 exR1 = [] ∧
    nameLookup exCtx1.groups exR1.remittance =
      some (sChars ("PAYROLL"), [(0, 0)]) ∧
    processRecord exCtx1 exL1 exR1 =
      (exL1 ++ [⟨3, sChars ("Payroll entry"), some ("GBP"),
        [⟨"A", 150, mkTag (sChars ("id1")) (sChars ("PAYROLL")), 'n'⟩,
          ⟨"B", -90, [], 'n'⟩, ⟨"C", -60, [], 'n'⟩]⟩], [], none) :=
  ⟨by decide, by decide, by decide, by
    have h := claim1_fanout exCtx1 exL1 exR1 (sChars ("PAYROLL"), [(0, 0)])
      (0, 0) (by decide) (by decide) (by decide) (by decide)
    rw [h]
    with_unfolding_all decide⟩

/-- Claim C2 counterexample: a pool split of equal amount whose entry date
is exactly 5 days from the record's date is NOT a fuzzy candidate (the
source compares with strict `<`), and the record instead creates a new
entry. -/
theorem claim2_counterexample :
    (0, 0) ∈ exCtx2.pool ∧
    isclose (getSplitD exL2 (0, 0)).value exR2.amount ∧
    txDate exCtx2 exR2 - (getEntryD exL2 0).date = 5 ∧
    fuzzyCandidates exCtx2 exL2 exR2 = [] ∧
    (processRecord exCtx2 exL2 exR2).1.length = exL2.length + 1 := by
  with_unfolding_all decide

/-- Claim C2 (amended): a pool split is a fuzzy candidate iff its value is
`isclose` to the record's amount and its entry date differs from the
record's authoritative date by strictly less than 5 days — so a split
exactly 4 days away can match and one exactly 5 days away cannot. -/
theorem claim2_amended (ctx : RunCtx) (L : Ledger) (r : BankRecord)
    (p : SplitPos) :
    p ∈ fuzzyCandidates ctx L r ↔
      p ∈ ctx.pool ∧ isclose (getSplitD L p).value r.amount ∧
        |txDate ctx r - (getEntryD L p.1).date| < 5 := by
  rw [fuzzyCandidates, List.mem_filter]
  simp only [decide_eq_true_eq]
  constructor
  · rintro ⟨h1, h2, h3, h4⟩
    refine ⟨h1, h2, ?_⟩
    rw [abs_lt]
    omega
  · rintro ⟨h1, h2, h3⟩
    rw [abs_lt] at h3
    exact ⟨h1, h2, by omega, by omega⟩

/-- Claim C3: on an exact TXID hit, a close amount marks the indexed split
reconciled (`'y'`) with no new entry and no error; a mismatched amount
emits a non-fatal `amountMismatch` error naming the record, leaves the
ledger untouched, and processing of the remaining records continues. -/
theorem claim3_dedup (ctx : RunCtx) (L : Ledger) (r : BankRecord)
    (rest : List BankRecord) (e : Chars × SplitPos)
    (h : lookA ctx.idx r.internalId = some e) :
    (isclose (getSplitD L e.2).value r.amount →
      processRecord ctx L r =
        (updSplit L e.2 (fun s => { s with recon := 'y' }), [], none) ∧
      (processRecord ctx L r).1.length = L.length ∧
      (validPos L e.2 → getSplitD (processRecord ctx L r).1 e.2 =
        { getSplitD L e.2 with recon := 'y' })) ∧
    (¬ isclose (getSplitD L e.2).value r.amount →
      processRecord ctx L r = (L, [RunErr.amountMismatch r], none) ∧
      (runFull ctx L (r :: rest)).1 = (runFull ctx L rest).1 ∧
      (runFull ctx L (r :: rest)).2.1 =
        RunErr.amountMismatch r :: (runFull ctx L rest).2.1) := by
  constructor
  · intro hc
    refine ⟨pr_dedup_close ctx L r e h hc, pr_len_close ctx L r e h hc, ?_⟩
    intro hv
    rw [pr_dedup_close ctx L r e h hc]
    show getSplitD (updSplit L e.2 (fun s => { s with recon := 'y' })) e.2 =
      { getSplitD L e.2 with recon := 'y' }
    rw [getSplitD_updSplit_self L e.2 _ hv]
  · intro hc
    refine ⟨pr_dedup_far ctx L r e h hc, ?_, ?_⟩
    · rw [runFull_cons, pr_fst_far ctx L r e h hc]
    · rw [runFull_cons, pr_fst_far ctx L r e h hc,
        pr_dedup_far ctx L r e h hc]
      rfl

theorem claim3_dedup_witness :
    lookA exCtx3.idx exR3.internalId = some (sChars ("t0"), (0, 0)) ∧
    ¬ isclose (getSplitD exL3 (0, 0)).value exR3.amount ∧
    processRecord exCtx3 exL3 exR3 =
      (exL3, [RunErr.amountMismatch exR3], none) :=
  ⟨by decide, by with_unfolding_all decide,
    ((claim3_dedup exCtx3 exL3 exR3 [] (sChars ("t0"), (0, 0))
      (by decide)).2 (by with_unfolding_all decide)).1⟩

/-- Claim C4 counterexample: two distinct records are fuzzy-matched to the
same split `(0,0)` in one run — the matched split is never removed from
the candidate pool. -/
theorem claim4_counterexample :
    exRa.internalId ≠ exRb.internalId ∧
    (runFull exCtx2 exL2 [exRa, exRb]).2.2 =
      [some (0, 0), some (0, 0)] := by
  with_unfolding_all decide

/-- Claim C4 (amended): a fuzzy-matched split stays in the (fixed)
candidate pool; whenever the chosen split of one record still minimizes the
criteria for the next record, that record is matched to the very same
split. -/
theorem claim4_amended (ctx : RunCtx) (L : Ledger) (r1 r2 : BankRecord)
    (p : SplitPos)
    (h1 : (processRecord ctx L r1).2.2 = some p)
    (h2 : lookA ctx.idx r2.internalId = none)
    (h3 : pickMin (processRecord ctx L r1).1 (txDate ctx r2)
      (fuzzyCandidates ctx (processRecord ctx L r1).1 r2) = some p) :
    (runFull ctx L [r1, r2]).2.2 = [some p, some p] := by
  show (processRecord ctx L r1).2.2 ::
    (processRecord ctx (processRecord ctx L r1).1 r2).2.2 :: [] =
    [some p, some p]
  rw [h1, pr_fuzzy ctx (processRecord ctx L r1).1 r2 p h2 h3]

theorem claim4_amended_witness :
    (processRecord exCtx2 exL2 exRa).2.2 = some (0, 0) ∧
    lookA exCtx2.idx exRb.internalId = none ∧
    (runFull exCtx2 exL2 [exRa, exRb]).2.2 =
      [some (0, 0), some (0, 0)] :=
  ⟨by with_unfolding_all decide, by decide,
    claim4_amended exCtx2 exL2 exRa exRb (0, 0)
      (by with_unfolding_all decide) (by decide)
      (by with_unfolding_all decide)⟩

/-- Claim C5 counterexample: after a first run in which two distinct
records were fuzzy-matched to the same split, a second run over the same
records creates a new entry — the reconciler is not idempotent even with
distinct internal ids. -/
theorem claim5_counterexample :
    exRa.internalId ≠ exRb.internalId ∧
    exL5 = (runFull exCtx2 exL2 [exRa, exRb]).1 ∧
    exCtx5 = mkCtx exL5 ("A") DateKey.booking [] ∧
    (runFull exCtx5 exL5 [exRa, exRb]).1.length = exL5.length + 1 := by
  with_unfolding_all decide

/-- Claim C5 (amended): if in addition every internal id is nonempty and
semicolon-free, no untagged memo contains the literal `TXID: `, and no
split is fuzzy-chosen by two records of the first run, then on the second
run every record is resolved by the exact TXID dedup step and no new entry
is created. -/
theorem claim5_amended (a : String) (dk : DateKey) (tbl : List String)
    (L0 : Ledger) (rs : List BankRecord)
    (hids : (rs.map (fun r => r.internalId)).Nodup)
    (hval : ∀ r ∈ rs, r.internalId ≠ [] ∧ ';' ∉ r.internalId)
    (hpool : ∀ p ∈ untaggedPool L0 a,
      containsPat txidPat (getSplitD L0 p).memo = false)
    (hnd : (((runFull (mkCtx L0 a dk tbl) L0 rs).2.2).filterMap
      id).Nodup) :
    (∀ r ∈ rs,
      lookA (splitByTxid (runFull (mkCtx L0 a dk tbl) L0 rs).1 a)
        r.internalId ≠ none) ∧
    (runFull (mkCtx (runFull (mkCtx L0 a dk tbl) L0 rs).1 a dk tbl)
      (runFull (mkCtx L0 a dk tbl) L0 rs).1 rs).1.length =
      (runFull (mkCtx L0 a dk tbl) L0 rs).1.length := by
  have hkey : ∀ r ∈ rs,
      lookA (splitByTxid (runFull (mkCtx L0 a dk tbl) L0 rs).1 a)
        r.internalId ≠ none := by
    intro r hr
    obtain ⟨p, hv, ha, ht⟩ := runOne_tags (mkCtx L0 a dk tbl) rs L0 hnd
      (fun p hp => hpool p (run_choices_pool (mkCtx L0 a dk tbl) rs L0 p hp))
      (mkCtx_pool_sound L0 a dk tbl) (mkCtx_index_sound L0 a dk tbl)
      (mkCtx_idx_disjoint L0 a dk tbl) hval r hr
    exact idx_keys_cover (runFull (mkCtx L0 a dk tbl) L0 rs).1 a
      r.internalId p
      ((mem_asp (runFull (mkCtx L0 a dk tbl) L0 rs).1 a p).mpr ⟨hv, ha⟩) ht
  exact ⟨hkey,
    run_dedup_length (mkCtx (runFull (mkCtx L0 a dk tbl) L0 rs).1 a dk tbl)
      rs (runFull (mkCtx L0 a dk tbl) L0 rs).1 hkey⟩

theorem claim5_amended_witness :
    ([exR5].map (fun r => r.internalId)).Nodup ∧
    (∀ r ∈ [exR5], r.internalId ≠ [] ∧ ';' ∉ r.internalId) ∧
    (((runFull (mkCtx ([]) ("A") DateKey.booking []) ([])
      [exR5]).2.2).filterMap id).Nodup ∧
    (runFull (mkCtx (runFull (mkCtx ([]) ("A") DateKey.booking []) ([])
        [exR5]).1 ("A") DateKey.booking [])
      (runFull (mkCtx ([]) ("A") DateKey.booking []) ([]) [exR5]).1
      [exR5]).1.length =
      (runFull (mkCtx ([]) ("A") DateKey.booking []) ([])
        [exR5]).1.length :=
  ⟨by decide, by decide, by with_unfolding_all decide,
    (claim5_amended ("A") DateKey.booking [] ([]) [exR5] (by decide)
      (by decide) (by decide) (by with_unfolding_all decide)).2⟩

/-- Claim C6 counterexample: two records with distinct internal ids that
both parse back to the tag `q` leave two splits of the same account
carrying the same TXID tag, starting from a ledger with no duplicate
tags. -/
theorem claim6_counterexample :
    exR6a.internalId ≠ exR6b.internalId ∧
    (tagsOf ([] : Ledger) ("A")).Nodup ∧
    tagsOf (runFull exCtx6 ([]) [exR6a, exR6b]).1 ("A") =
      [sChars ("q"), sChars ("q")] ∧
    ¬ (tagsOf (runFull exCtx6 ([]) [exR6a, exR6b]).1 ("A")).Nodup := by
  decide

/-- Claim C6 (amended): tag uniqueness is preserved by a run provided
additionally every internal id is nonempty and semicolon-free and no
untagged memo contains the literal `TXID: `. -/
theorem claim6_amended (a : String) (dk : DateKey) (tbl : List String)
    (L0 : Ledger) (rs : List BankRecord)
    (h0 : (tagsOf L0 a).Nodup)
    (hids : (rs.map (fun r => r.internalId)).Nodup)
    (hval : ∀ r ∈ rs, r.internalId ≠ [] ∧ ';' ∉ r.internalId)
    (hpool : ∀ p ∈ untaggedPool L0 a,
      containsPat txidPat (getSplitD L0 p).memo = false) :
    (tagsOf (runFull (mkCtx L0 a dk tbl) L0 rs).1 a).Nodup :=
  runOne_nodup (mkCtx L0 a dk tbl) rs L0 [] h0
    (fun t ht => Or.inl (tag_mem_keys L0 a t ht))
    (fun r _ h => by cases h)
    hids hval (mkCtx_pool_sound L0 a dk tbl)
    (fun p hp => Or.inl (hpool p hp))

theorem claim6_amended_witness :
    (tagsOf ([] : Ledger) ("A")).Nodup ∧
    (∀ r ∈ [exR5], r.internalId ≠ [] ∧ ';' ∉ r.internalId) ∧
    (tagsOf (runFull (mkCtx ([]) ("A") DateKey.booking []) ([])
      [exR5]).1 ("A")).Nodup :=
  ⟨by decide, by decide,
    claim6_amended ("A") DateKey.booking [] ([]) [exR5] (by decide)
      (by decide) (by decide) (by decide)⟩

/-- Claim C7: the downloader selects the amount of the first balance type
of the fixed priority list present in the response dict; when none of the
eight types is present the selection is `none`, modelling the
`NoBalanceAvailable` assertion failure. -/
theorem claim7_balance (bs : List BalanceEntry) :
    (selectBalance bs =
      match balancePriority.find?
          (fun k => (lookA (balanceDict bs) k).isSome) with
      | some k => (lookA (balanceDict bs) k).map (fun e => e.2)
      | none => none) ∧
    (selectBalance bs = none ↔
      ∀ k ∈ balancePriority, lookA (balanceDict bs) k = none) := by
  have hmain := selectFrom_spec (balanceDict bs) balancePriority
  refine ⟨by rw [selectBalance]; exact hmain, ?_⟩
  rw [selectBalance, hmain]
  cases hf : balancePriority.find?
      (fun k => (lookA (balanceDict bs) k).isSome) with
  | none =>
      simp only []
      constructor
      · intro _ k hk
        have := List.find?_eq_none.mp hf k hk
        simpa using this
      · intro _
        trivial
  | some k =>
      have hks := List.find?_some hf
      have hkm := List.mem_of_find?_eq_some hf
      simp only []
      constructor
      · intro hmap
        cases hl : lookA (balanceDict bs) k with
        | none => rw [hl] at hks; simp at hks
        | some e => rw [hl] at hmap; simp at hmap
      · intro hall
        have := hall k hkm
        rw [this] at hks
        simp at hks


/-- Claim C8 counterexample: a record whose currency code is absent from
the commodity table is still committed as a new entry, with no currency
set and no error emitted — `lookup` returns `None` and `SetCurrency(None)`
is a silent no-op, so no `UnknownCurrency` failure exists. -/
theorem claim8_counterexample :
    lookupCur exCtx8.curTable exR8.currency = none ∧
    processRecord exCtx8 ([]) exR8 =
      ([⟨2, sChars ("n"), none,
        [⟨"A", 10, mkTag (sChars ("z")) (sChars ("n")), 'n'⟩]⟩],
        [], none) ∧
    (getEntryD (processRecord exCtx8 ([]) exR8).1 0).currency = none := by
  decide

/-- Claim C8 (amended): when a new entry is created for a record whose
currency code is not in the commodity table, the entry is nevertheless
appended to the ledger, carries no currency, and no error is emitted. -/
theorem claim8_amended (ctx : RunCtx) (L : Ledger) (r : BankRecord)
    (h1 : lookA ctx.idx r.internalId = none)
    (h2 : pickMin L (txDate ctx r) (fuzzyCandidates ctx L r) = none)
    (h3 : lookupCur ctx.curTable r.currency = none) :
    (processRecord ctx L r).1 = L ++ [newEntryFor ctx L r] ∧
    (newEntryFor ctx L r).currency = none ∧
    (processRecord ctx L r).2.1 = [] := by
  refine ⟨pr_fst_create ctx L r h1 h2, ?_, by rw [pr_create ctx L r h1 h2]⟩
  rw [newEntryFor_currency ctx L r, h3]

theorem claim8_amended_witness :
    lookA exCtx8.idx exR8.internalId = none ∧
    lookupCur exCtx8.curTable exR8.currency = none ∧
    ((processRecord exCtx8 ([]) exR8).1 =
        [] ++ [newEntryFor exCtx8 ([]) exR8] ∧
      (newEntryFor exCtx8 ([]) exR8).currency = none ∧
      (processRecord exCtx8 ([]) exR8).2.1 = []) :=
  ⟨by decide, by decide,
    claim8_amended exCtx8 ([]) exR8 (by decide) (by decide) (by decide)⟩

set_option maxRecDepth 8000 in
/-- Claim C9 counterexample: the balance warning carries only the account
name and the downloaded (expected) balance — two ledgers with different
actual balances yield the very same warning, so the actual balance is not
named. -/
theorem claim9_counterexample :
    computedBalance exL9a ("A") ≠ computedBalance exL9b ("A") ∧
    balanceCheck exL9a ("A") 1000 = [⟨"A", 1000⟩] ∧
    balanceCheck exL9b ("A") 1000 = [⟨"A", 1000⟩] := by
  with_unfolding_all decide

/-- Claim C9 (amended): after the records are processed, a warning is
emitted iff the computed balance is not `isclose` to the downloaded one;
the warning identifies the account and the expected balance only, and the
ledger produced by the record loop is returned unchanged (no rollback). -/
theorem claim9_amended (ctx : RunCtx) (L : Ledger) (rs : List BankRecord)
    (expected : ℚ) :
    (reconcileAccount ctx L rs expected).1 = (runFull ctx L rs).1 ∧
    ((reconcileAccount ctx L rs expected).2.2 = [] ↔
      isclose (computedBalance (runFull ctx L rs).1 ctx.acct) expected) ∧
    ∀ w ∈ (reconcileAccount ctx L rs expected).2.2,
      w = (⟨ctx.acct, expected⟩ : BalanceWarning) := by
  refine ⟨rfl, ?_, ?_⟩
  · show balanceCheck (runFull ctx L rs).1 ctx.acct expected = [] ↔ _
    rw [balanceCheck]
    by_cases hc : isclose (computedBalance (runFull ctx L rs).1 ctx.acct)
      expected
    · rw [if_pos hc]
      simp [hc]
    · rw [if_neg hc]
      simp [hc]
  · show ∀ w ∈ balanceCheck (runFull ctx L rs).1 ctx.acct expected, _
    rw [balanceCheck]
    by_cases hc : isclose (computedBalance (runFull ctx L rs).1 ctx.acct)
      expected
    · rw [if_pos hc]
      intro w hw
      cases hw
    · rw [if_neg hc]
      intro w hw
      exact List.mem_singleton.mp hw

/-- Claim C10: when several splits of one account carry the same TXID tag,
the dict comprehension indexes only the last one in split-list order, and
any earlier split with that tag stays in the untagged fuzzy-candidate
pool. -/
theorem claim10_lastwins (L : Ledger) (a : String) (t : Chars)
    (p q : SplitPos)
    (hp : p ∈ accountSplitPositions L a)
    (htp : tagOfAt L p = some t)
    (hlast : lastOpt ((txidPairs L a).filter
      (fun e => decide (e.1 = t))) = some (t, q))
    (hne : p ≠ q) :
    lookA (splitByTxid L a) t = some (t, q) ∧ p ∈ untaggedPool L a := by
  have hlook : lookA (splitByTxid L a) t = some (t, q) := by
    rw [splitByTxid, lookA_foldl_nil (txidPairs L a) t, hlast]
  refine ⟨hlook, (pool_mem_char L a p).mpr ⟨hp, ?_⟩⟩
  intro hmem
  rw [dictValues] at hmem
  obtain ⟨e, he, hep⟩ := List.mem_map.mp hmem
  obtain ⟨hv, ha, hte⟩ := idx_entry_sound L a e he
  have ht1 : e.1 = t := by
    rw [hep, htp] at hte
    injection hte with h
    exact h.symm
  have hmemp : (t, p) ∈ splitByTxid L a := by
    have hept : e = (t, p) := by
      rw [← ht1, ← hep]
    rw [← hept]
    exact he
  have hnd : ((splitByTxid L a).map Prod.fst).Nodup := by
    rw [splitByTxid]
    exact keys_nodup_foldl (txidPairs L a) [] (by simp)
  have h2 : lookA (splitByTxid L a) t = some (t, p) :=
    lookA_of_mem_nodup (splitByTxid L a) hnd (t, p) hmemp
  rw [hlook] at h2
  injection h2 with h3
  exact hne (congrArg Prod.snd h3).symm

theorem claim10_lastwins_witness :
    (0, 0) ∈ accountSplitPositions exL10 ("A") ∧
    tagOfAt exL10 (0, 0) = some (sChars ("x")) ∧
    ((0, 0) : SplitPos) ≠ (1, 0) ∧
    (lookA (splitByTxid exL10 ("A")) (sChars ("x")) =
        some (sChars ("x"), ((1, 0) : SplitPos)) ∧
      (0, 0) ∈ untaggedPool exL10 ("A")) :=
  ⟨by decide, by decide, by decide,
    claim10_lastwins exL10 ("A") (sChars ("x")) (0, 0) (1, 0) (by decide)
      (by decide) (by decide) (by decide)⟩
